import Mathlib

/-!
# Chat broker and message store (labs/lab02/backend)

A verification development for two Go packages:

* `message` (`message/message.go`): an append-only message list with a lookup by sender;
* `chatcore` (`chatcore/chatcore.go`): the in-process broker, a goroutine `Run` that drains
  a bounded inbound channel and forwards every message to one or all registered endpoints.

The broker is concurrent.  It is embedded as a transition system: every public method is
one atomic transition, the goroutine `Run` advances by one scheduling step at a time (one
`select` per step), and the random choices of the Go runtime (which ready `select` case is
taken, the iteration order of a `map`) are explicit arguments of the step functions.
-/

namespace message

/-- The struct `Message` of package `message`. -/
structure Message where
  Sender : String
  Content : String
  Timestamp : Int
deriving DecidableEq, Repr

/-- The struct `MessageStore`: the slice `messages` (the mutex carries no data). -/
structure MessageStore where
  messages : List Message
deriving DecidableEq, Repr

/-- `NewMessageStore`: an empty slice (its capacity of 100 is only a preallocation). -/
def NewMessageStore : MessageStore := { messages := [] }

/-- `AddMessage`: appends at the end and returns the `nil` error. -/
def MessageStore.AddMessage (s : MessageStore) (msg : Message) :
    MessageStore × Option String :=
  ({ messages := s.messages ++ [msg] }, none)

/-- The `for ... range` loop of `GetMessages` (lines 59-64): the result slice grows by
`append` for each message whose sender matches. -/
def collectBySender (user : String) (msgs : List Message) : List Message :=
  msgs.foldl (fun result msg => if msg.Sender = user then result ++ [msg] else result) []

/-- `GetMessages`: the store after the call, and either the error text or the result slice. -/
def MessageStore.GetMessages (s : MessageStore) (user : String) :
    MessageStore × Except String (List Message) :=
  if s.messages.length = 0 then (s, .error "no messages")
  else if user = "" then (s, .ok s.messages)
  else (s, .ok (collectBySender user s.messages))

/-- A store built by a sequence of `AddMessage` calls on a new store. -/
def build (msgs : List Message) : MessageStore :=
  msgs.foldl (fun s m => (s.AddMessage m).1) NewMessageStore

end message

namespace chatcore

/-- The struct `Message` of package `chatcore` (`Timestamp` is an `int64` that the
broker stores and never computes with). -/
structure Message where
  Sender : String
  Recipient : String
  Content : String
  Broadcast : Bool
  Timestamp : Int
deriving DecidableEq, Repr

/-- The non-nil values `ctx.Err()` takes once `ctx.Done()` is closed. -/
inductive CtxError where
  | Canceled
  | DeadlineExceeded
deriving DecidableEq, Repr

/-- Channels are references: an endpoint is named by its address. -/
abbrev ChanId := Nat

/-- The run-time state of a Go value of type `chan Message`: capacity, buffered messages
(oldest first), whether `close` was called on it, and the number of goroutines parked in
a receive on it.  A `nil` channel behaves in a `select` with `default` as a channel of
capacity 0 on which nobody waits: a send on it is never ready. -/
structure Chan where
  cap : Nat
  buf : List Message
  closed : Bool
  waiting : Nat
deriving DecidableEq, Repr

/-- A send on the (open) channel can proceed without blocking: a receiver is parked on
it, or its buffer has room. -/
def Chan.canAccept (ch : Chan) : Bool :=
  decide (0 < ch.waiting) || decide (ch.buf.length < ch.cap)

/-- Number of sends the channel can take with no receive in between. -/
def Chan.spare (ch : Chan) : Nat := ch.waiting + (ch.cap - ch.buf.length)

/-- A completed send: the message is handed to a parked receiver, which leaves with it,
or else joins the buffer at its end. -/
def Chan.push (ch : Chan) (msg : Message) : Chan :=
  if 0 < ch.waiting then { ch with waiting := ch.waiting - 1 }
  else { ch with buf := ch.buf ++ [msg] }

/-- Completed sends of several messages in turn. -/
def Chan.pushAll (ch : Chan) (msgs : List Message) : Chan := msgs.foldl Chan.push ch

/-- A receive by the owner of the channel: the oldest buffered message leaves; on an
empty open channel the receiver parks; on an empty closed channel it returns at once. -/
def Chan.recv (ch : Chan) : Chan :=
  match ch.buf with
  | _ :: rest => { ch with buf := rest }
  | [] => if ch.closed then ch else { ch with waiting := ch.waiting + 1 }

/-- A parked receiver gives up waiting (another case of its `select` fired). -/
def Chan.leave (ch : Chan) : Chan := { ch with waiting := ch.waiting - 1 }

/-- `close(ch)`: the channel is marked closed and the parked receivers are released. -/
def Chan.close (ch : Chan) : Chan := { ch with closed := true, waiting := 0 }

/-- Where the goroutine `Run` stands.
* `idle`: at the outer `select` (line 48), no lock held;
* `bcast msg rest`: inside the `range` loop (lines 54-62) with the read lock held, `rest`
  being the endpoints still to be visited;
* `direct msg`: read lock held, about to execute lines 64-72;
* `exited`: `Run` has returned;
* `panicked`: a send on a closed channel raised a run-time panic (line 56 or 66). -/
inductive PC where
  | idle
  | bcast (msg : Message) (rest : List ChanId)
  | direct (msg : Message)
  | exited
  | panicked
deriving DecidableEq, Repr

/-- The broker together with what it acts on.
`ctx`, `input`, `users`, `done` are the fields of the Go struct (`ctx = none` while
`ctx.Done()` is open, `ctx = some e` once it is closed and `ctx.Err() = e`); `rlocked` is
the state of `usersMutex`: whether `Run`, its only reader, holds the read lock (the
writers hold the write lock only within one transition); `chans` is the heap of endpoint
channels; `pc` is the position of `Run`.  `enq`, `deq` and `delivered` are history
variables: the messages placed on `input`, the messages `Run` took from it, and the
messages `Run` sent into each endpoint, each in order of occurrence. -/
structure Broker where
  ctx : Option CtxError
  input : List Message
  users : List (String × ChanId)
  rlocked : Bool
  done : Bool
  chans : ChanId → Chan
  pc : PC
  enq : List Message
  deq : List Message
  delivered : ChanId → List Message

/-- Capacity of the inbound channel: `make(chan Message, 100)` at line 37. -/
def inputCap : Nat := 100

/-- `NewBroker(ctx)`: empty inbound channel, empty registry, `done` open.  The context may
already be cancelled; `heap` is the state of the channels existing in the process. -/
def NewBroker (ctx : Option CtxError) (heap : ChanId → Chan) : Broker :=
  { ctx := ctx, input := [], users := [], rlocked := false, done := false,
    chans := heap, pc := .idle, enq := [], deq := [], delivered := fun _ => [] }

/-- Map read `b.users[userID]` with the comma-ok form. -/
def lookupUser (u : String) : List (String × ChanId) → Option ChanId
  | [] => none
  | (k, c) :: rest => if k = u then some c else lookupUser u rest

/-- Map write `b.users[userID] = recv`: replaces the value of an existing key, adds the
key otherwise. -/
def setUser (u : String) (c : ChanId) : List (String × ChanId) → List (String × ChanId)
  | [] => [(u, c)]
  | (k, d) :: rest => if k = u then (u, c) :: rest else (k, d) :: setUser u c rest

/-- Map removal `delete(b.users, userID)`. -/
def deleteUser (u : String) : List (String × ChanId) → List (String × ChanId)
  | [] => []
  | (k, d) :: rest => if k = u then deleteUser u rest else (k, d) :: deleteUser u rest

/-- `RegisterUser(userID, recv)`: the map write, made once the call holds the write lock. -/
def Broker.RegisterUser (b : Broker) (userID : String) (recv : ChanId) : Broker :=
  { b with users := setUser userID recv b.users }

/-- `UnregisterUser(userID)`: the map removal, made once the call holds the write lock. -/
def Broker.UnregisterUser (b : Broker) (userID : String) : Broker :=
  { b with users := deleteUser userID b.users }

/-- `SendMessage(msg)`: the `select` of lines 82-87.  The case `<-b.ctx.Done()` is ready
when the context is done, the case `b.input <- msg` when the inbound channel has room.
When both are ready the runtime takes either; `pick = true` stands for the first.  The
result is `none` while no case is ready (the caller stays blocked), otherwise the new
state and the returned error (`none` for `nil`). -/
def Broker.SendMessage (b : Broker) (pick : Bool) (msg : Message) :
    Option (Broker × Option CtxError) :=
  let enqueued : Broker := { b with input := b.input ++ [msg], enq := b.enq ++ [msg] }
  match b.ctx.isSome, decide (b.input.length < inputCap) with
  | true, true => if pick then some (b, b.ctx) else some (enqueued, none)
  | true, false => some (b, b.ctx)
  | false, true => some (enqueued, none)
  | false, false => none

/-- Outcome of the inner `select` of `Run` (lines 55-61 and 65-71). -/
inductive SendResult where
  | sent
  | dropped
  | aborted
  | panicked
deriving DecidableEq, Repr

/-- The inner `select`: `case ch <- msg`, `case <-b.ctx.Done()`, `default`.  The send case
can proceed when the channel is closed (it then panics) or can accept a message;
`default` is taken only when no case can proceed; when both cases can proceed
`pick = true` stands for the context case. -/
def selectSend (pick : Bool) (ctxDone : Bool) (ch : Chan) : SendResult :=
  let doSend : SendResult := if ch.closed then .panicked else .sent
  match ch.closed || ch.canAccept, ctxDone with
  | true, true => if pick then .aborted else doSend
  | true, false => doSend
  | false, true => .aborted
  | false, false => .dropped

/-- The heap after a completed `ch <- msg` on endpoint `c`. -/
def pushChan (heap : ChanId → Chan) (c : ChanId) (msg : Message) : ChanId → Chan :=
  fun d => if d = c then (heap c).push msg else heap d

/-- The delivery history after a completed `ch <- msg` on endpoint `c`. -/
def pushLog (log : ChanId → List Message) (c : ChanId) (msg : Message) :
    ChanId → List Message :=
  fun d => if d = c then log c ++ [msg] else log d

/-- Effect of a completed `ch <- msg` on endpoint `c`. -/
def Broker.deliver (b : Broker) (c : ChanId) (msg : Message) : Broker :=
  { b with chans := pushChan b.chans c msg, delivered := pushLog b.delivered c msg }

/-- A `return` of `Run` from the outer `select`: the deferred `close(b.done)` runs. -/
def Broker.exitIdle (b : Broker) : Broker :=
  { b with done := true, pc := .exited }

/-- A `return` of `Run` from an inner `select` (lines 58-59, 68-69): `RUnlock`, then the
deferred `close(b.done)`. -/
def Broker.exitAbort (b : Broker) : Broker :=
  { b with rlocked := false, done := true, pc := .exited }

/-- A panic of `Run` in a send: the deferred `close(b.done)` runs while the panic unwinds,
`RUnlock` (not deferred) does not. -/
def Broker.panicSend (b : Broker) : Broker :=
  { b with done := true, pc := .panicked }

/-- Lines 51-53 and 63: `Run` takes `msg` from `input`, acquires the read lock and enters
the branch for its kind; `order` is the order in which `range b.users` yields the
entries.  The receive and `RLock` are one step: a registry write falling between the two
has the effect of the same write just before the receive. -/
def Broker.takeMsg (b : Broker) (order : List (String × ChanId)) (msg : Message)
    (rest : List Message) : Broker :=
  { b with
    input := rest, deq := b.deq ++ [msg], rlocked := true
    pc := if msg.Broadcast then .bcast msg (order.map Prod.snd) else .direct msg }

/-- Line 74: `RUnlock` at the end of an iteration of the outer loop. -/
def Broker.unlockIdle (b : Broker) : Broker :=
  { b with rlocked := false, pc := .idle }

/-- One scheduling step of the goroutine `Run`.  `pick` resolves a `select` with two ready
cases (`true`: the case `<-b.ctx.Done()`), `order` is the iteration order of the map.  At
`idle` with neither case ready, and after `Run` has ended, the state does not change. -/
def Broker.Run (b : Broker) (pick : Bool) (order : List (String × ChanId)) : Broker :=
  match b.pc with
  | .idle =>
    match b.ctx.isSome, b.input with
    | true, [] => b.exitIdle
    | true, msg :: rest => if pick then b.exitIdle else b.takeMsg order msg rest
    | false, msg :: rest => b.takeMsg order msg rest
    | false, [] => b
  | .bcast _ [] => b.unlockIdle
  | .bcast msg (c :: rest) =>
    match selectSend pick b.ctx.isSome (b.chans c) with
    | .sent => { b.deliver c msg with pc := .bcast msg rest }
    | .dropped => { b with pc := .bcast msg rest }
    | .aborted => b.exitAbort
    | .panicked => b.panicSend
  | .direct msg =>
    match lookupUser msg.Recipient b.users with
    | none => b.unlockIdle
    | some c =>
      match selectSend pick b.ctx.isSome (b.chans c) with
      | .sent => (b.deliver c msg).unlockIdle
      | .dropped => b.unlockIdle
      | .aborted => b.exitAbort
      | .panicked => b.panicSend
  | .exited => b
  | .panicked => b

/-- The choices of the runtime for one step of `Run`. -/
abbrev Choice := Bool × List (String × ChanId)

/-- The first `n` steps of `Run` with nothing else scheduled in between, step `i` using
the choices `f i`. -/
def Broker.RunN (b : Broker) (f : Nat → Choice) (n : Nat) : Broker :=
  match n with
  | 0 => b
  | k + 1 => (b.Run (f 0).1 (f 0).2).RunN (fun i => f (i + 1)) k

/-- The governing context is cancelled (or its deadline passes). -/
def Broker.cancel (b : Broker) (e : CtxError) : Broker :=
  match b.ctx with
  | none => { b with ctx := some e }
  | some _ => b

/-- The owner of endpoint `c` receives from it. -/
def Broker.recvChan (b : Broker) (c : ChanId) : Broker :=
  { b with chans := fun d => if d = c then (b.chans c).recv else b.chans d }

/-- A receiver parked on endpoint `c` gives up waiting. -/
def Broker.leaveChan (b : Broker) (c : ChanId) : Broker :=
  { b with chans := fun d => if d = c then (b.chans c).leave else b.chans d }

/-- The owner of endpoint `c` closes it. -/
def Broker.closeChan (b : Broker) (c : ChanId) : Broker :=
  { b with chans := fun d => if d = c then (b.chans c).close else b.chans d }

/-- One transition of the system: a call of a public method by some goroutine, a step of
`Run`, or an action of the environment (cancellation, an endpoint owner receiving from its
channel, giving up a receive, or closing the channel).  The registry writers need the
write lock, which is not granted while `Run` holds the read lock. -/
inductive Step : Broker → Broker → Prop where
  | cancel (b : Broker) (e : CtxError) : Step b (b.cancel e)
  | send (b : Broker) (pick : Bool) (msg : Message) (b' : Broker) (r : Option CtxError) :
      b.SendMessage pick msg = some (b', r) → Step b b'
  | register (b : Broker) (u : String) (c : ChanId) :
      b.rlocked = false → Step b (b.RegisterUser u c)
  | unregister (b : Broker) (u : String) :
      b.rlocked = false → Step b (b.UnregisterUser u)
  | run (b : Broker) (pick : Bool) (order : List (String × ChanId)) :
      order.Perm b.users → Step b (b.Run pick order)
  | recv (b : Broker) (c : ChanId) : Step b (b.recvChan c)
  | leave (b : Broker) (c : ChanId) : Step b (b.leaveChan c)
  | close (b : Broker) (c : ChanId) : Step b (b.closeChan c)

/-- States reachable from `b0` through transitions all of whose target states satisfy `P`
(`P` restricts what the environment does; `fun _ => True` restricts nothing). -/
inductive Reach (P : Broker → Prop) (b0 : Broker) : Broker → Prop where
  | init : Reach P b0 b0
  | step (b b' : Broker) : Reach P b0 b → Step b b' → P b' → Reach P b0 b'

/-! ### Predicates and invariants -/

/-- What the Go runtime guarantees of every channel: the buffer is within the capacity,
and receivers are parked only on an open channel with an empty buffer. -/
def HeapOk (heap : ChanId → Chan) : Prop :=
  ∀ c, (heap c).buf.length ≤ (heap c).cap ∧
    (0 < (heap c).waiting → (heap c).buf = [] ∧ (heap c).closed = false)

/-- No two registry entries hold the same endpoint. -/
def Exclusive (b : Broker) : Prop := (b.users.map Prod.snd).Nodup

/-- Every endpoint in the registry is open. -/
def AllOpen (b : Broker) : Prop := ∀ p ∈ b.users, (b.chans p.2).closed = false

/-- User `u` is registered with endpoint `c`, which no other entry of the registry holds
and which can accept a message. -/
def Stays (u : String) (c : ChanId) (b : Broker) : Prop :=
  lookupUser u b.users = some c ∧ Exclusive b ∧ (b.chans c).canAccept = true

/-- Heap and delivery history after one non-blocking send of `msg` into each endpoint of
the list in turn: the message goes to an endpoint that can accept it and is skipped for
one that cannot. -/
def sendAll (msg : Message) :
    List ChanId → (ChanId → Chan) × (ChanId → List Message) →
      (ChanId → Chan) × (ChanId → List Message)
  | [], hl => hl
  | c :: rest, hl =>
    if (hl.1 c).canAccept then sendAll msg rest (pushChan hl.1 c msg, pushLog hl.2 c msg)
    else sendAll msg rest hl

/-- Number of steps `Run` needs to dispatch `msg` when the registry has `n` entries, the
shutdown signal does not fire and no send panics: taking the message, one step per
endpoint of a broadcast and the release of the lock, or the look-up and send of a direct
message. -/
def dispatchSteps (n : Nat) (msg : Message) : Nat := if msg.Broadcast then n + 2 else 2

/-- Number of steps `Run` needs to dispatch a whole queue. -/
def drainSteps (n : Nat) (msgs : List Message) : Nat := (msgs.map (dispatchSteps n)).sum

/-- The messages that concern user `u`: the broadcasts and the direct messages to `u`. -/
def addressedTo (u : String) (msg : Message) : Bool :=
  msg.Broadcast || decide (msg.Recipient = u)

/-- The ways in which one step of `Run` changes the state, each with the condition under
which it happens (a case analysis of `Broker.Run`, used to prove invariants). -/
inductive RunCase (b : Broker) (order : List (String × ChanId)) : Broker → Prop where
  | stay : b.pc = .idle ∧ b.ctx = none ∧ b.input = [] ∨ b.pc = .exited ∨ b.pc = .panicked →
      RunCase b order b
  | exitIdle : b.pc = .idle → b.ctx.isSome = true → RunCase b order b.exitIdle
  | take (msg : Message) (rest : List Message) : b.pc = .idle → b.input = msg :: rest →
      RunCase b order (b.takeMsg order msg rest)
  | bcastEnd (msg : Message) : b.pc = .bcast msg [] → RunCase b order b.unlockIdle
  | bcastSent (msg : Message) (c : ChanId) (rest : List ChanId) :
      b.pc = .bcast msg (c :: rest) → (b.chans c).closed = false →
      (b.chans c).canAccept = true →
      RunCase b order { b.deliver c msg with pc := .bcast msg rest }
  | bcastDropped (msg : Message) (c : ChanId) (rest : List ChanId) :
      b.pc = .bcast msg (c :: rest) → (b.chans c).closed = false →
      (b.chans c).canAccept = false → b.ctx = none →
      RunCase b order { b with pc := .bcast msg rest }
  | bcastAbort (msg : Message) (l : List ChanId) :
      b.pc = .bcast msg l → b.ctx.isSome = true → RunCase b order b.exitAbort
  | bcastPanic (msg : Message) (c : ChanId) (rest : List ChanId) :
      b.pc = .bcast msg (c :: rest) → (b.chans c).closed = true →
      RunCase b order b.panicSend
  | directNone (msg : Message) : b.pc = .direct msg →
      lookupUser msg.Recipient b.users = none → RunCase b order b.unlockIdle
  | directSent (msg : Message) (c : ChanId) : b.pc = .direct msg →
      lookupUser msg.Recipient b.users = some c → (b.chans c).closed = false →
      (b.chans c).canAccept = true → RunCase b order (b.deliver c msg).unlockIdle
  | directDropped (msg : Message) (c : ChanId) : b.pc = .direct msg →
      lookupUser msg.Recipient b.users = some c → (b.chans c).closed = false →
      (b.chans c).canAccept = false → b.ctx = none → RunCase b order b.unlockIdle
  | directAbort (msg : Message) : b.pc = .direct msg → b.ctx.isSome = true →
      RunCase b order b.exitAbort
  | directPanic (msg : Message) (c : ChanId) : b.pc = .direct msg →
      lookupUser msg.Recipient b.users = some c → (b.chans c).closed = true →
      RunCase b order b.panicSend

/-- How the position of `Run` determines the read lock and the completion indicator.
At the idle wait the lock is free and `done` is open; inside a dispatch the lock is held
and `done` is open (and the endpoints still to visit in a broadcast are registered); after
a return the lock is free, `done` is closed and the shutdown signal has fired; after a
panic `done` is closed, the lock is still held and some registered endpoint is closed. -/
def LoopInv (b : Broker) : Prop :=
  match b.pc with
  | .idle => b.rlocked = false ∧ b.done = false
  | .bcast _ rest => b.rlocked = true ∧ b.done = false ∧ ∀ c ∈ rest, ∃ u, (u, c) ∈ b.users
  | .direct _ => b.rlocked = true ∧ b.done = false
  | .exited => b.rlocked = false ∧ b.done = true ∧ b.ctx.isSome = true
  | .panicked =>
    b.rlocked = true ∧ b.done = true ∧ ∃ p ∈ b.users, (b.chans p.2).closed = true

/-- How the delivery histories relate to the sequence of dequeued messages: every
history is a subsequence of it, and during a dispatch the history of an endpoint that is
still to be served does not contain the message in flight yet. -/
def DeliveredInv (b : Broker) : Prop :=
  match b.pc with
  | .bcast msg rest =>
    rest.Nodup ∧ ∃ pre, b.deq = pre ++ [msg] ∧
      ∀ c, (b.delivered c).Sublist (if c ∈ rest then pre else b.deq)
  | .direct msg => ∃ pre, b.deq = pre ++ [msg] ∧ ∀ c, (b.delivered c).Sublist pre
  | _ => ∀ c, (b.delivered c).Sublist b.deq

/-- Bookkeeping for the endpoint `c` of user `u` from a state in which `Run` had taken the
messages `q0` and sent `d0` into `c`: of the messages taken since then, those that concern
`u` have been sent into `c`, in order, the one in flight counting once `c` was served. -/
def ArrivalInv (d0 q0 : List Message) (u : String) (c : ChanId) (b : Broker) : Prop :=
  ∃ since, b.deq = q0 ++ since ∧
    match b.pc with
    | .idle => b.delivered c = d0 ++ since.filter (addressedTo u)
    | .bcast msg rest =>
      rest.Nodup ∧ msg.Broadcast = true ∧ ∃ pre, since = pre ++ [msg] ∧
        b.delivered c = d0 ++ (if c ∈ rest then pre else since).filter (addressedTo u)
    | .direct msg =>
      msg.Broadcast = false ∧ ∃ pre, since = pre ++ [msg] ∧
        b.delivered c = d0 ++ pre.filter (addressedTo u)
    | _ => True

/-! ### Sample states -/

/-- A broadcast message. -/
def sampleBroadcast : Message :=
  { Sender := "carol", Recipient := "", Content := "hello", Broadcast := true, Timestamp := 1 }

/-- A direct message to "alice". -/
def sampleDirect : Message :=
  { Sender := "carol", Recipient := "alice", Content := "hi", Broadcast := false,
    Timestamp := 2 }

/-- A direct message to "dave". -/
def sampleUnknown : Message :=
  { Sender := "carol", Recipient := "dave", Content := "hi", Broadcast := false,
    Timestamp := 3 }

/-- A direct message to "bob". -/
def sampleDirectBob : Message :=
  { Sender := "carol", Recipient := "bob", Content := "yo", Broadcast := false,
    Timestamp := 4 }

/-- Every channel open and empty, with capacity `n`. -/
def openHeap (n : Nat) : ChanId → Chan :=
  fun _ => { cap := n, buf := [], closed := false, waiting := 0 }

/-- As `openHeap 1`, but with channel 0 in the state `ch`. -/
def heapWith (ch : Chan) : ChanId → Chan := fun c => if c = 0 then ch else openHeap 1 c

/-- As `openHeap 1`, but channel 0 has been closed, holding the messages `buf`. -/
def closedHeap (buf : List Message) : ChanId → Chan :=
  heapWith { cap := 1, buf := buf, closed := true, waiting := 0 }

/-- The registry after registering "alice" with channel 0 and "bob" with channel 1. -/
def twoUsers : List (String × ChanId) := [("alice", 0), ("bob", 1)]

/-- The runtime never prefers the context case and iterates the map in the given order. -/
def constChoice (order : List (String × ChanId)) : Nat → Choice := fun _ => (false, order)

/-- A completed call of `SendMessage` (the state is kept when the call would block). -/
def submit (b : Broker) (pick : Bool) (msg : Message) : Broker :=
  match b.SendMessage pick msg with
  | some (b', _) => b'
  | none => b

/-- The state after `msgs` have been submitted one after the other to `b`. -/
def submitAll (b : Broker) (msgs : List Message) : Broker :=
  msgs.foldl (fun s m => submit s false m) b

/-- A new broker on `heap` with context state `ctx`, "alice" and "bob" registered as in
`twoUsers`, and `msg` submitted. -/
def scene (ctx : Option CtxError) (heap : ChanId → Chan) (msg : Message) : Broker :=
  submit (((NewBroker ctx heap).RegisterUser "alice" 0).RegisterUser "bob" 1) false msg

/-- The state after `Run` has taken a broadcast, the context was then cancelled, and the
runtime took the context case at the first endpoint. -/
def cancelledMidBroadcast : Broker :=
  (((scene none (openHeap 1) sampleBroadcast).Run false twoUsers).cancel
    CtxError.Canceled).Run true twoUsers

/-- A new broker in which "alice" and "bob" are both registered with channel 0 (open,
empty, capacity 2), and one broadcast submitted. -/
def sharedScene : Broker :=
  submit (((NewBroker none (openHeap 2)).RegisterUser "alice" 0).RegisterUser "bob" 0)
    false sampleBroadcast

/-- "alice" registered with the closed channel 0 and "bob" with the open channel 1; a
broadcast and then a direct message to "bob" submitted. -/
def closedScene : Broker :=
  submit (scene none (closedHeap []) sampleBroadcast) false sampleDirectBob

/-- "alice" and "bob" registered with open channels of capacity 2; a direct message to
"alice", a broadcast and a direct message to "bob" submitted in this order. -/
def busyScene : Broker :=
  submit (submit (scene none (openHeap 2) sampleDirect) false sampleBroadcast) false
    sampleDirectBob

end chatcore

/-! ## Message store -/

namespace message

theorem foldl_collect (user : String) (msgs acc : List Message) :
    msgs.foldl (fun result msg => if msg.Sender = user then result ++ [msg] else result) acc
      = acc ++ msgs.filter (fun m => decide (m.Sender = user)) := by
  induction msgs generalizing acc with
  | nil => simp
  | cons m ms ih =>
    by_cases h : m.Sender = user
    · simp [List.foldl_cons, ih, h, List.filter_cons]
    · simp [List.foldl_cons, ih, h, List.filter_cons]

theorem collectBySender_eq_filter (user : String) (msgs : List Message) :
    collectBySender user msgs = msgs.filter (fun m => decide (m.Sender = user)) := by
  simp [collectBySender, foldl_collect]

theorem foldl_add (msgs : List Message) (s : MessageStore) :
    (msgs.foldl (fun s m => (s.AddMessage m).1) s).messages = s.messages ++ msgs := by
  induction msgs generalizing s with
  | nil => simp
  | cons m ms ih =>
    rw [List.foldl_cons, ih]
    simp [MessageStore.AddMessage]

theorem build_messages (msgs : List Message) : (build msgs).messages = msgs := by
  simp [build, foldl_add, NewMessageStore]

/-- C10: `GetMessages` is a filtered copy of the store.  For a store built by `AddMessage`
calls from the messages `msgs` (which are then its content, in insertion order, every
`AddMessage` returning the nil error) and any `user`: the call returns the store unchanged;
on the empty store the result is the error "no messages"; otherwise there is no error and
the result is all of `msgs` in order when `user` is the empty string, and exactly the
messages of `msgs` whose `Sender` equals `user`, in order, when it is not. -/
theorem GetMessages_filtered_copy (msgs : List Message) (user : String) :
    (build msgs).messages = msgs ∧
    (∀ (s : MessageStore) (m : Message),
      s.AddMessage m = ({ messages := s.messages ++ [m] }, none)) ∧
    ((build msgs).GetMessages user).1 = build msgs ∧
    ((build msgs).GetMessages user).2 =
      (if msgs = [] then Except.error "no messages"
       else if user = "" then Except.ok msgs
       else Except.ok (msgs.filter (fun m => decide (m.Sender = user)))) := by
  refine ⟨build_messages msgs, fun _ _ => rfl, ?_, ?_⟩
  · unfold MessageStore.GetMessages
    split_ifs <;> rfl
  · unfold MessageStore.GetMessages
    rw [build_messages, collectBySender_eq_filter]
    cases msgs with
    | nil => simp
    | cons m ms =>
      by_cases hu : user = ""
      · simp [hu]
      · simp [hu]

end message

/-! ## Registry -/

namespace chatcore

theorem lookupUser_setUser_same (u : String) (c : ChanId) (l : List (String × ChanId)) :
    lookupUser u (setUser u c l) = some c := by
  induction l with
  | nil => simp [setUser, lookupUser]
  | cons p rest ih =>
    obtain ⟨k, d⟩ := p
    by_cases h : k = u
    · simp [setUser, lookupUser, h]
    · simp [setUser, lookupUser, h, ih]

theorem lookupUser_setUser_other (u v : String) (c : ChanId) (l : List (String × ChanId))
    (h : v ≠ u) : lookupUser v (setUser u c l) = lookupUser v l := by
  induction l with
  | nil => simp [setUser, lookupUser, Ne.symm h]
  | cons p rest ih =>
    obtain ⟨k, d⟩ := p
    by_cases hk : k = u
    · subst hk
      simp [setUser, lookupUser, Ne.symm h]
    · by_cases hv : k = v
      · subst hv
        simp [setUser, lookupUser, hk]
      · simp [setUser, lookupUser, hk, hv, ih]

theorem setUser_setUser (u : String) (c d : ChanId) (l : List (String × ChanId)) :
    setUser u d (setUser u c l) = setUser u d l := by
  induction l with
  | nil => simp [setUser]
  | cons p rest ih =>
    obtain ⟨k, e⟩ := p
    by_cases hk : k = u
    · simp [setUser, hk]
    · simp [setUser, hk, ih]

theorem lookupUser_deleteUser_same (u : String) (l : List (String × ChanId)) :
    lookupUser u (deleteUser u l) = none := by
  induction l with
  | nil => simp [deleteUser, lookupUser]
  | cons p rest ih =>
    obtain ⟨k, d⟩ := p
    by_cases h : k = u
    · simp [deleteUser, h, ih]
    · simp [deleteUser, lookupUser, h, ih]

theorem lookupUser_deleteUser_other (u v : String) (l : List (String × ChanId))
    (h : v ≠ u) : lookupUser v (deleteUser u l) = lookupUser v l := by
  induction l with
  | nil => simp [deleteUser, lookupUser]
  | cons p rest ih =>
    obtain ⟨k, d⟩ := p
    by_cases hk : k = u
    · subst hk
      simp [deleteUser, lookupUser, Ne.symm h, ih]
    · by_cases hv : k = v
      · subst hv
        simp [deleteUser, lookupUser, hk]
      · simp [deleteUser, lookupUser, hk, hv, ih]

theorem deleteUser_absent (u : String) (l : List (String × ChanId))
    (h : lookupUser u l = none) : deleteUser u l = l := by
  induction l with
  | nil => simp [deleteUser]
  | cons p rest ih =>
    obtain ⟨k, d⟩ := p
    by_cases hk : k = u
    · simp [lookupUser, hk] at h
    · simp [lookupUser, hk] at h
      simp [deleteUser, hk, ih h]

/-- C8: the registry is a finite map keyed by the user identifier.  After
`RegisterUser u e` the lookup of `u` gives `e`, whatever `u` was mapped to before;
registering the same pair twice gives the state of registering it once, and of two
registrations of `u` the last one wins; after `UnregisterUser u` the user `u` is absent,
and when `u` was absent already the state does not change at all; both operations keep the
lookup of every other user, the inbound queue, every endpoint, the context, `done`, the
lock and the position of `Run`. -/
theorem registry_finite_map (b : Broker) (u : String) (e e' : ChanId) :
    lookupUser u (b.RegisterUser u e).users = some e ∧
    (b.RegisterUser u e).RegisterUser u e = b.RegisterUser u e ∧
    (b.RegisterUser u e').RegisterUser u e = b.RegisterUser u e ∧
    lookupUser u (b.UnregisterUser u).users = none ∧
    (lookupUser u b.users = none → b.UnregisterUser u = b) ∧
    (∀ v, v ≠ u → lookupUser v (b.RegisterUser u e).users = lookupUser v b.users) ∧
    (∀ v, v ≠ u → lookupUser v (b.UnregisterUser u).users = lookupUser v b.users) ∧
    (b.RegisterUser u e = { b with users := (b.RegisterUser u e).users }) ∧
    (b.UnregisterUser u = { b with users := (b.UnregisterUser u).users }) := by
  refine ⟨lookupUser_setUser_same u e b.users, ?_, ?_, lookupUser_deleteUser_same u b.users,
    ?_, fun v hv => lookupUser_setUser_other u v e b.users hv,
    fun v hv => lookupUser_deleteUser_other u v b.users hv, rfl, rfl⟩
  · simp [Broker.RegisterUser, setUser_setUser]
  · simp [Broker.RegisterUser, setUser_setUser]
  · intro h
    simp [Broker.UnregisterUser, deleteUser_absent u b.users h]

/-- C8 at a concrete state: unregistering a user from a new broker, where nobody is
registered, changes nothing. -/
theorem registry_finite_map_witness :
    (NewBroker none (openHeap 1)).UnregisterUser "alice" = NewBroker none (openHeap 1) :=
  (registry_finite_map (NewBroker none (openHeap 1)) "alice" 0 0).2.2.2.2.1 rfl

end chatcore

/-! ## Steps of `Run` -/

namespace chatcore

theorem RunN_zero (b : Broker) (f : Nat → Choice) : b.RunN f 0 = b := rfl

theorem RunN_succ (b : Broker) (f : Nat → Choice) (n : Nat) :
    b.RunN f (n + 1) = (b.Run (f 0).1 (f 0).2).RunN (fun i => f (i + 1)) n := rfl

theorem RunN_add (n m : Nat) (b : Broker) (f : Nat → Choice) :
    b.RunN f (n + m) = (b.RunN f n).RunN (fun i => f (i + n)) m := by
  induction n generalizing b f with
  | zero => simp [RunN_zero]
  | succ k ih =>
    have h : k + 1 + m = (k + m) + 1 := by omega
    rw [h, RunN_succ, RunN_succ, ih]
    congr 1

theorem selectSend_open (pick : Bool) (ch : Chan) (h : ch.closed = false) :
    selectSend pick false ch = if ch.canAccept then SendResult.sent else SendResult.dropped := by
  unfold selectSend
  cases hr : ch.canAccept <;> simp [h]

theorem Run_idle_take (b : Broker) (pick : Bool) (order : List (String × ChanId))
    (msg : Message) (rest : List Message)
    (hpc : b.pc = .idle) (hctx : b.ctx = none) (hin : b.input = msg :: rest) :
    b.Run pick order = b.takeMsg order msg rest := by
  unfold Broker.Run
  simp [hpc, hctx, hin]

theorem Run_bcast_nil (b : Broker) (pick : Bool) (order : List (String × ChanId))
    (msg : Message) (hpc : b.pc = .bcast msg []) :
    b.Run pick order = b.unlockIdle := by
  unfold Broker.Run
  simp [hpc]

theorem Run_bcast_cons (b : Broker) (pick : Bool) (order : List (String × ChanId))
    (msg : Message) (c : ChanId) (rest : List ChanId)
    (hpc : b.pc = .bcast msg (c :: rest)) (hctx : b.ctx = none)
    (hopen : (b.chans c).closed = false) :
    b.Run pick order =
      if (b.chans c).canAccept then { b.deliver c msg with pc := .bcast msg rest }
      else { b with pc := .bcast msg rest } := by
  unfold Broker.Run
  simp only [hpc, hctx, Option.isSome_none, selectSend_open pick _ hopen]
  by_cases hr : (b.chans c).canAccept <;> simp [hr]

theorem Run_direct_none (b : Broker) (pick : Bool) (order : List (String × ChanId))
    (msg : Message) (hpc : b.pc = .direct msg)
    (hl : lookupUser msg.Recipient b.users = none) :
    b.Run pick order = b.unlockIdle := by
  unfold Broker.Run
  simp [hpc, hl]

theorem Run_direct_some (b : Broker) (pick : Bool) (order : List (String × ChanId))
    (msg : Message) (c : ChanId) (hpc : b.pc = .direct msg) (hctx : b.ctx = none)
    (hl : lookupUser msg.Recipient b.users = some c)
    (hopen : (b.chans c).closed = false) :
    b.Run pick order =
      if (b.chans c).canAccept then (b.deliver c msg).unlockIdle else b.unlockIdle := by
  unfold Broker.Run
  simp only [hpc, hctx, hl, Option.isSome_none, selectSend_open pick _ hopen]
  by_cases hr : (b.chans c).canAccept <;> simp [hr]

theorem push_cap (ch : Chan) (msg : Message) :
    (ch.push msg).cap = ch.cap ∧ (ch.push msg).closed = ch.closed := by
  unfold Chan.push
  split <;> exact ⟨rfl, rfl⟩

theorem pushChan_closed (heap : ChanId → Chan) (c d : ChanId) (msg : Message) :
    (pushChan heap c msg d).closed = (heap d).closed := by
  unfold pushChan
  by_cases h : d = c
  · simp [h, (push_cap (heap c) msg).2]
  · simp [h]

/-- The `range` loop of a broadcast runs to its end when shutdown has not fired and the
endpoints to visit are open. -/
theorem bcast_loop (msg : Message) (l : List ChanId) (b : Broker) (f : Nat → Choice)
    (hpc : b.pc = .bcast msg l) (hctx : b.ctx = none)
    (hopen : ∀ c ∈ l, (b.chans c).closed = false) :
    b.RunN f l.length =
      { b with chans := (sendAll msg l (b.chans, b.delivered)).1,
               delivered := (sendAll msg l (b.chans, b.delivered)).2,
               pc := .bcast msg [] } := by
  induction l generalizing b f with
  | nil =>
    cases b
    simp only [List.length_nil, RunN_zero, sendAll] at *
    simp [hpc]
  | cons c rest ih =>
    rw [List.length_cons, RunN_succ,
      Run_bcast_cons b _ _ msg c rest hpc hctx (hopen c (List.mem_cons_self _ _))]
    by_cases hr : (b.chans c).canAccept
    · simp only [hr, if_true]
      rw [ih]
      · simp [sendAll, hr, Broker.deliver]
      · rfl
      · exact hctx
      · intro d hd
        simp only [Broker.deliver]
        rw [pushChan_closed]
        exact hopen d (List.mem_cons_of_mem _ hd)
    · simp only [hr]
      rw [ih]
      · simp [sendAll, hr]
      · rfl
      · exact hctx
      · intro d hd
        exact hopen d (List.mem_cons_of_mem _ hd)

end chatcore

/-! ## What a dispatch does to the endpoints -/

namespace chatcore

theorem pushAll_cap (msgs : List Message) (ch : Chan) :
    (ch.pushAll msgs).cap = ch.cap ∧ (ch.pushAll msgs).closed = ch.closed := by
  induction msgs generalizing ch with
  | nil => exact ⟨rfl, rfl⟩
  | cons m ms ih =>
    unfold Chan.pushAll at ih ⊢
    rw [List.foldl_cons, (ih _).1, (ih _).2]
    exact push_cap ch m

theorem pushAll_cons (ch : Chan) (m : Message) (ms : List Message) :
    ch.pushAll (m :: ms) = (ch.push m).pushAll ms := rfl

theorem canAccept_iff (ch : Chan) : ch.canAccept = true ↔ 0 < ch.spare := by
  unfold Chan.canAccept Chan.spare
  simp only [Bool.or_eq_true, decide_eq_true_eq]
  omega

theorem spare_push (ch : Chan) (msg : Message) (h : ch.canAccept = true) :
    (ch.push msg).spare + 1 = ch.spare := by
  have h0 := (canAccept_iff ch).1 h
  unfold Chan.spare Chan.push at *
  by_cases hw : 0 < ch.waiting
  · simp only [hw, if_true]
    omega
  · simp only [hw, if_false, List.length_append, List.length_singleton]
    omega

/-- The buffer after sends into a channel on which no receiver is parked and whose
buffer has room for all of them. -/
theorem pushAll_buf (msgs : List Message) (ch : Chan) (hw : ch.waiting = 0)
    (hlen : ch.buf.length + msgs.length ≤ ch.cap) :
    (ch.pushAll msgs).buf = ch.buf ++ msgs ∧ (ch.pushAll msgs).waiting = 0 := by
  induction msgs generalizing ch with
  | nil => simp [Chan.pushAll, hw]
  | cons m ms ih =>
    have hp : ch.push m = { ch with buf := ch.buf ++ [m] } := by
      unfold Chan.push
      simp [hw]
    simp only [List.length_cons] at hlen
    have h := ih (ch.push m) (by rw [hp]; exact hw)
      (by rw [hp]; simp only [List.length_append, List.length_singleton]; omega)
    rw [pushAll_cons, h.1, h.2, hp]
    simp

theorem sendAll_cap (msg : Message) (l : List ChanId)
    (hl : (ChanId → Chan) × (ChanId → List Message)) (d : ChanId) :
    ((sendAll msg l hl).1 d).cap = (hl.1 d).cap ∧
    ((sendAll msg l hl).1 d).closed = (hl.1 d).closed := by
  induction l generalizing hl with
  | nil => simp [sendAll]
  | cons c rest ih =>
    unfold sendAll
    by_cases hr : (hl.1 c).canAccept
    · simp only [hr, if_true]
      rw [(ih _).1, (ih _).2]
      unfold pushChan
      by_cases hd : d = c
      · simp [hd, push_cap]
      · simp [hd]
    · simp only [hr]
      exact ih hl

theorem min_spare_succ (sp sp' k : Nat) (h : sp' + 1 = sp) :
    min sp (k + 1) = min sp' k + 1 := by
  omega

/-- What a round of sends does to one endpoint: it takes as many copies of the message
as the list names it, up to what it can accept. -/
theorem sendAll_spec (msg : Message) (l : List ChanId)
    (hl : (ChanId → Chan) × (ChanId → List Message)) (d : ChanId) :
    (sendAll msg l hl).1 d =
      (hl.1 d).pushAll (List.replicate (min (hl.1 d).spare (l.count d)) msg) ∧
    (sendAll msg l hl).2 d =
      hl.2 d ++ List.replicate (min (hl.1 d).spare (l.count d)) msg := by
  induction l generalizing hl with
  | nil => simp [sendAll, Chan.pushAll]
  | cons c rest ih =>
    unfold sendAll
    by_cases hr : (hl.1 c).canAccept
    · simp only [hr, if_true]
      rw [(ih _).1, (ih _).2]
      by_cases hd : d = c
      · subst hd
        have hs := spare_push (hl.1 d) msg hr
        simp only [pushChan, pushLog, if_true, List.count_cons_self,
          min_spare_succ _ _ _ hs, List.replicate_succ, pushAll_cons,
          List.append_assoc, List.singleton_append, and_self]
      · have hcd : (c == d) = false := by
          simp [Ne.symm hd]
        simp [pushChan, pushLog, hd, List.count_cons, hcd]
    · rw [if_neg hr]
      have hge : (hl.1 c).spare = 0 := by
        have h0 := (canAccept_iff (hl.1 c)).not.1 hr
        omega
      by_cases hd : d = c
      · subst hd
        rw [(ih hl).1, (ih hl).2, hge]
        simp
      · have hcd : (c == d) = false := by
          simp [Ne.symm hd]
        rw [(ih hl).1, (ih hl).2]
        simp [List.count_cons, hcd]

theorem lookupUser_mem (u : String) (c : ChanId) (l : List (String × ChanId))
    (h : lookupUser u l = some c) : (u, c) ∈ l := by
  induction l with
  | nil => simp [lookupUser] at h
  | cons p rest ih =>
    obtain ⟨k, d⟩ := p
    by_cases hk : k = u
    · simp [lookupUser, hk] at h
      simp [hk, h]
    · simp [lookupUser, hk] at h
      exact List.mem_cons_of_mem _ (ih h)

/-- A whole broadcast dispatch, from the idle wait back to it, when shutdown has not
fired and every registered endpoint is open. -/
theorem broadcast_dispatch (b : Broker) (msg : Message) (rest : List Message)
    (f : Nat → Choice) (hpc : b.pc = .idle) (hctx : b.ctx = none)
    (hin : b.input = msg :: rest) (hb : msg.Broadcast = true)
    (hperm : (f 0).2.Perm b.users) (hopen : AllOpen b) :
    b.RunN f (b.users.length + 2) =
      { b with input := rest, deq := b.deq ++ [msg], rlocked := false, pc := .idle,
               chans := (sendAll msg ((f 0).2.map Prod.snd) (b.chans, b.delivered)).1,
               delivered := (sendAll msg ((f 0).2.map Prod.snd) (b.chans, b.delivered)).2 } := by
  have hlen : b.users.length + 2 = ((f 0).2.map Prod.snd).length + 1 + 1 := by
    simp [hperm.length_eq]
  rw [hlen, RunN_succ, Run_idle_take b _ _ msg rest hpc hctx hin, RunN_add,
    bcast_loop msg ((f 0).2.map Prod.snd)]
  · rw [RunN_succ, RunN_zero, Run_bcast_nil _ _ _ msg rfl]
    simp [Broker.unlockIdle, Broker.takeMsg]
  · simp [Broker.takeMsg, hb]
  · simp [Broker.takeMsg, hctx]
  · intro c hc
    obtain ⟨p, hp, rfl⟩ := List.mem_map.1 hc
    exact hopen p (hperm.mem_iff.1 hp)

/-- A whole direct dispatch to an unknown recipient. -/
theorem direct_dispatch_none (b : Broker) (msg : Message) (rest : List Message)
    (f : Nat → Choice) (hpc : b.pc = .idle) (hctx : b.ctx = none)
    (hin : b.input = msg :: rest) (hb : msg.Broadcast = false)
    (hl : lookupUser msg.Recipient b.users = none) :
    b.RunN f 2 =
      { b with input := rest, deq := b.deq ++ [msg], rlocked := false, pc := .idle } := by
  rw [RunN_succ, Run_idle_take b _ _ msg rest hpc hctx hin, RunN_succ, RunN_zero,
    Run_direct_none _ _ _ msg]
  · simp [Broker.unlockIdle, Broker.takeMsg]
  · simp [Broker.takeMsg, hb]
  · simpa [Broker.takeMsg] using hl

/-- A whole direct dispatch to a registered recipient whose endpoint is open. -/
theorem direct_dispatch_some (b : Broker) (msg : Message) (rest : List Message)
    (f : Nat → Choice) (c : ChanId) (hpc : b.pc = .idle) (hctx : b.ctx = none)
    (hin : b.input = msg :: rest) (hb : msg.Broadcast = false)
    (hl : lookupUser msg.Recipient b.users = some c)
    (hopen : (b.chans c).closed = false) :
    b.RunN f 2 =
      { b with input := rest, deq := b.deq ++ [msg], rlocked := false, pc := .idle,
               chans := (sendAll msg [c] (b.chans, b.delivered)).1,
               delivered := (sendAll msg [c] (b.chans, b.delivered)).2 } := by
  rw [RunN_succ, Run_idle_take b _ _ msg rest hpc hctx hin, RunN_succ, RunN_zero,
    Run_direct_some _ _ _ msg c]
  · by_cases hr : (b.chans c).canAccept
    · simp [Broker.unlockIdle, Broker.takeMsg, Broker.deliver, sendAll, hr]
    · simp [Broker.unlockIdle, Broker.takeMsg, sendAll, hr]
  · simp [Broker.takeMsg, hb]
  · simp [Broker.takeMsg, hctx]
  · simpa [Broker.takeMsg] using hl
  · simpa [Broker.takeMsg] using hopen

end chatcore

/-! ## Dispatch claims -/

namespace chatcore

theorem count_snd_pos (u : String) (c : ChanId) (l : List (String × ChanId))
    (h : (u, c) ∈ l) : 0 < (l.map Prod.snd).count c := by
  apply List.count_pos_iff.2
  exact List.mem_map.2 ⟨(u, c), h, rfl⟩

theorem count_snd_zero (d : ChanId) (l : List (String × ChanId))
    (h : ∀ u, (u, d) ∉ l) : (l.map Prod.snd).count d = 0 := by
  apply List.count_eq_zero.2
  intro hd
  obtain ⟨p, hp, rfl⟩ := List.mem_map.1 hd
  exact h p.1 hp

/-- C1, counterexample: "alice" is registered with the closed channel 0, "bob" with the
open, empty channel 1 of capacity 1; shutdown has not fired and `Run` is idle with one
broadcast message queued.  `Run` visits alice's endpoint first and panics in the send, so
bob's endpoint, registered and with spare capacity, never receives the broadcast. -/
theorem broadcast_closed_endpoint_counterexample :
    (scene none (closedHeap []) sampleBroadcast).pc = PC.idle ∧
    (scene none (closedHeap []) sampleBroadcast).ctx = none ∧
    (scene none (closedHeap []) sampleBroadcast).input = [sampleBroadcast] ∧
    ("bob", 1) ∈ (scene none (closedHeap []) sampleBroadcast).users ∧
    ((scene none (closedHeap []) sampleBroadcast).chans 1).canAccept = true ∧
    ((scene none (closedHeap []) sampleBroadcast).RunN (constChoice twoUsers) 4).pc
      = PC.panicked ∧
    (((scene none (closedHeap []) sampleBroadcast).RunN (constChoice twoUsers) 4).chans 1).buf
      = [] := by
  decide

/-- C1, amended: for every broker state in which no registered endpoint is closed and
every message with `Broadcast = true` that `Run` dequeues while the shutdown signal has not
fired, the dispatch (`b.users.length + 2` steps of `Run`, whatever the map iteration order
and the choices of the runtime) returns to the idle wait with the registry unchanged and
has sent the message into the endpoint of every user in the registry whose endpoint
could accept it (room in its buffer, or a receiver waiting): exactly once when no other
user is registered with the same endpoint, the message joining the buffer at its end or
going to the waiting receiver; in general once per user registered with it, as far as it
can accept.  It has left every endpoint that is not in the registry untouched. -/
theorem broadcast_reaches_registered (b b' : Broker) (msg : Message) (rest : List Message)
    (f : Nat → Choice) (hpc : b.pc = .idle) (hctx : b.ctx = none)
    (hin : b.input = msg :: rest) (hb : msg.Broadcast = true)
    (hperm : (f 0).2.Perm b.users) (hopen : AllOpen b)
    (hb' : b' = b.RunN f (b.users.length + 2)) :
    b'.pc = .idle ∧ b'.rlocked = false ∧ b'.input = rest ∧ b'.users = b.users ∧
    b'.done = b.done ∧
    (∀ d, b'.chans d = (b.chans d).pushAll (List.replicate
        (min (b.chans d).spare ((b.users.map Prod.snd).count d)) msg)
      ∧ b'.delivered d = b.delivered d ++ List.replicate
        (min (b.chans d).spare ((b.users.map Prod.snd).count d)) msg) ∧
    (∀ u c, (u, c) ∈ b.users → (b.chans c).canAccept = true →
      ∃ k, b'.delivered c = b.delivered c ++ msg :: List.replicate k msg) ∧
    (∀ u c, (u, c) ∈ b.users → (b.chans c).canAccept = true → Exclusive b →
      b'.chans c = (b.chans c).push msg ∧ b'.delivered c = b.delivered c ++ [msg]) ∧
    (∀ u c, (u, c) ∈ b.users → (b.chans c).buf.length < (b.chans c).cap →
      (b.chans c).waiting = 0 → Exclusive b →
      (b'.chans c).buf = (b.chans c).buf ++ [msg]) ∧
    (∀ d, (∀ u, (u, d) ∉ b.users) →
      b'.chans d = b.chans d ∧ b'.delivered d = b.delivered d) := by
  have hrun := broadcast_dispatch b msg rest f hpc hctx hin hb hperm hopen
  have hcount : ∀ d, ((f 0).2.map Prod.snd).count d = (b.users.map Prod.snd).count d :=
    fun d => (hperm.map Prod.snd).count_eq d
  have hall : ∀ d, b'.chans d = (b.chans d).pushAll (List.replicate
        (min (b.chans d).spare ((b.users.map Prod.snd).count d)) msg)
      ∧ b'.delivered d = b.delivered d ++ List.replicate
        (min (b.chans d).spare ((b.users.map Prod.snd).count d)) msg := by
    intro d
    have h1 := sendAll_spec msg ((f 0).2.map Prod.snd) (b.chans, b.delivered) d
    rw [hcount d] at h1
    subst hb'
    rw [hrun]
    exact h1
  have hone : ∀ u c, (u, c) ∈ b.users → (b.chans c).canAccept = true → Exclusive b →
      min (b.chans c).spare ((b.users.map Prod.snd).count c) = 1 := by
    intro u c hu hr hex
    have hsp := (canAccept_iff (b.chans c)).1 hr
    have hpos := count_snd_pos u c b.users hu
    have hle : (b.users.map Prod.snd).count c ≤ 1 := List.nodup_iff_count_le_one.1 hex c
    omega
  refine ⟨?_, ?_, ?_, ?_, ?_, hall, ?_, ?_, ?_, ?_⟩
  · subst hb'; rw [hrun]
  · subst hb'; rw [hrun]
  · subst hb'; rw [hrun]
  · subst hb'; rw [hrun]
  · subst hb'; rw [hrun]
  · intro u c hu hr
    have hsp := (canAccept_iff (b.chans c)).1 hr
    have hpos := count_snd_pos u c b.users hu
    obtain ⟨k, hk⟩ : ∃ k, min (b.chans c).spare ((b.users.map Prod.snd).count c) = k + 1 :=
      ⟨min (b.chans c).spare ((b.users.map Prod.snd).count c) - 1, by omega⟩
    refine ⟨k, ?_⟩
    rw [(hall c).2, hk, List.replicate_succ]
  · intro u c hu hr hex
    rw [(hall c).1, (hall c).2, hone u c hu hr hex]
    exact ⟨rfl, rfl⟩
  · intro u c hu hlt hw hex
    have hr : (b.chans c).canAccept = true := by
      simp [Chan.canAccept, hlt]
    rw [(hall c).1, hone u c hu hr hex]
    simp [Chan.pushAll, Chan.push, hw]
  · intro d hd
    have h0 := count_snd_zero d b.users hd
    have hd' := hall d
    rw [h0] at hd'
    simpa [Chan.pushAll] using hd'

/-- C1, amended, at a concrete state: "alice" and "bob" registered with the open channels
0 and 1, one broadcast queued; bob's endpoint receives it once. -/
theorem broadcast_reaches_registered_witness :
    (((scene none (openHeap 1) sampleBroadcast).RunN (constChoice twoUsers) 4).chans 1).buf
      = ((scene none (openHeap 1) sampleBroadcast).chans 1).buf ++ [sampleBroadcast] :=
  (broadcast_reaches_registered (scene none (openHeap 1) sampleBroadcast) _ sampleBroadcast []
    (constChoice twoUsers) rfl rfl rfl rfl (List.Perm.refl _)
    (by unfold AllOpen; decide) rfl).2.2.2.2.2.2.2.2.1 "bob" 1 (by decide) (by decide) rfl
    (by unfold Exclusive; decide)

end chatcore

namespace chatcore

/-- C2, counterexample: "alice" is registered with channel 0, which is closed and empty
(capacity 1, so it has spare capacity); shutdown has not fired and a direct message to
"alice" is queued.  The send panics: nothing is appended to alice's endpoint. -/
theorem direct_closed_endpoint_counterexample :
    (scene none (closedHeap []) sampleDirect).pc = PC.idle ∧
    (scene none (closedHeap []) sampleDirect).ctx = none ∧
    (scene none (closedHeap []) sampleDirect).input = [sampleDirect] ∧
    sampleDirect.Broadcast = false ∧
    lookupUser sampleDirect.Recipient (scene none (closedHeap []) sampleDirect).users
      = some 0 ∧
    ((scene none (closedHeap []) sampleDirect).chans 0).canAccept = true ∧
    ((scene none (closedHeap []) sampleDirect).RunN (constChoice twoUsers) 2).pc
      = PC.panicked ∧
    (((scene none (closedHeap []) sampleDirect).RunN (constChoice twoUsers) 2).chans 0).buf
      = [] := by
  decide

/-- C2, amended: for every broker state and every message with `Broadcast = false` whose
`Recipient` is registered with an endpoint that is not closed and can accept a message
(room in its buffer, or a receiver waiting), the dispatch in `Run` (two steps, shutdown
not fired, whatever the choices of the runtime) sends the message exactly once into that
endpoint, where it joins the buffer at its end unless a waiting receiver takes it; it
changes no other endpoint and leaves the registry unchanged; `Run` is back at its idle
wait with the rest of the queue. -/
theorem direct_delivers_once (b b' : Broker) (msg : Message) (rest : List Message)
    (f : Nat → Choice) (c : ChanId) (hpc : b.pc = .idle) (hctx : b.ctx = none)
    (hin : b.input = msg :: rest) (hb : msg.Broadcast = false)
    (hl : lookupUser msg.Recipient b.users = some c)
    (hopen : (b.chans c).closed = false) (hroom : (b.chans c).canAccept = true)
    (hb' : b' = b.RunN f 2) :
    b' = { b with input := rest, deq := b.deq ++ [msg], rlocked := false, pc := .idle,
                  chans := pushChan b.chans c msg,
                  delivered := pushLog b.delivered c msg } ∧
    b'.chans c = (b.chans c).push msg ∧
    ((b.chans c).waiting = 0 →
      b'.chans c = { b.chans c with buf := (b.chans c).buf ++ [msg] }) ∧
    (∀ d, d ≠ c → b'.chans d = b.chans d ∧ b'.delivered d = b.delivered d) ∧
    b'.delivered c = b.delivered c ++ [msg] ∧
    b'.users = b.users ∧ b'.pc = .idle ∧ b'.input = rest := by
  have hrun := direct_dispatch_some b msg rest f c hpc hctx hin hb hl hopen
  have h1 : b' =
      { b with input := rest, deq := b.deq ++ [msg], rlocked := false, pc := .idle,
               chans := pushChan b.chans c msg,
               delivered := pushLog b.delivered c msg } := by
    rw [hb', hrun]
    simp [sendAll, hroom]
  refine ⟨h1, ?_, ?_, ?_, ?_, ?_, ?_, ?_⟩
  · rw [h1]
    simp [pushChan]
  · intro hw
    rw [h1]
    simp [pushChan, Chan.push, hw]
  · intro d hd
    rw [h1]
    simp [pushChan, pushLog, hd]
  · rw [h1]
    simp [pushLog]
  · rw [h1]
  · rw [h1]
  · rw [h1]

/-- C2, amended, at a concrete state: "alice" and "bob" registered with open empty
channels of capacity 1, one direct message to "alice" queued. -/
theorem direct_delivers_once_witness :
    (((scene none (openHeap 1) sampleDirect).RunN (constChoice twoUsers) 2).chans 0).buf
      = [sampleDirect] ∧
    (((scene none (openHeap 1) sampleDirect).RunN (constChoice twoUsers) 2).chans 1).buf
      = [] := by
  have h := direct_delivers_once (scene none (openHeap 1) sampleDirect) _ sampleDirect []
    (constChoice twoUsers) 0 rfl rfl rfl rfl rfl rfl rfl rfl
  constructor
  · rw [h.2.2.1 rfl]
    rfl
  · rw [(h.2.2.2.1 1 (by decide)).1]
    rfl

/-- C3: a direct message whose recipient is not a key of the registry.  `SendMessage`
accepts it like any other message (shutdown not fired, room in the inbound queue: `nil`
is returned and the message is queued).  When `Run` dequeues it (shutdown not fired), the
dispatch takes two steps and ends at the idle wait with the rest of the queue: no endpoint,
no delivery history and no registry entry has changed, `done` is as before and `Run` has
not panicked; and in the dispatch step itself the lookup fails whatever the state of the
context, so the step only releases the read lock and goes back to the idle wait, where the
next message, if any, is taken. -/
theorem direct_unknown_recipient_dropped (b : Broker) (msg : Message)
    (hb : msg.Broadcast = false) (hl : lookupUser msg.Recipient b.users = none) :
    (∀ pick, b.ctx = none → b.input.length < inputCap →
      b.SendMessage pick msg =
        some ({ b with input := b.input ++ [msg], enq := b.enq ++ [msg] }, none)) ∧
    (∀ f rest, b.pc = .idle → b.ctx = none → b.input = msg :: rest →
      b.RunN f 2 =
        { b with input := rest, deq := b.deq ++ [msg], rlocked := false, pc := .idle }) ∧
    (∀ pick order, b.pc = .direct msg →
      b.Run pick order = { b with rlocked := false, pc := .idle }) ∧
    (∀ f rest m rest', b.pc = .idle → b.ctx = none → b.input = msg :: rest →
      rest = m :: rest' → ∀ pick order,
      (b.RunN f 2).Run pick order = (b.RunN f 2).takeMsg order m rest') := by
  refine ⟨?_, ?_, ?_, ?_⟩
  · intro pick hctx hlen
    unfold Broker.SendMessage
    simp [hctx, hlen]
  · intro f rest hpc hctx hin
    exact direct_dispatch_none b msg rest f hpc hctx hin hb hl
  · intro pick order hpc
    exact Run_direct_none b pick order msg hpc hl
  · intro f rest m rest' hpc hctx hin hrest pick order
    apply Run_idle_take
    · rw [direct_dispatch_none b msg rest f hpc hctx hin hb hl]
    · rw [direct_dispatch_none b msg rest f hpc hctx hin hb hl]
      exact hctx
    · rw [direct_dispatch_none b msg rest f hpc hctx hin hb hl]
      exact hrest

/-- C3 at a concrete state: "alice" and "bob" registered, a direct message to "dave"
queued; after the dispatch both endpoints are as before and `Run` is idle. -/
theorem direct_unknown_recipient_dropped_witness :
    (scene none (openHeap 1) sampleUnknown).RunN (constChoice twoUsers) 2 =
      { scene none (openHeap 1) sampleUnknown with
        input := [], deq := (scene none (openHeap 1) sampleUnknown).deq ++ [sampleUnknown],
        rlocked := false, pc := .idle } :=
  (direct_unknown_recipient_dropped (scene none (openHeap 1) sampleUnknown) sampleUnknown
    rfl rfl).2.1 (constChoice twoUsers) [] rfl rfl rfl

end chatcore

/-! ## Case analysis of a step of `Run` -/

namespace chatcore

theorem selectSend_cases (pick ctxDone : Bool) (ch : Chan) :
    (selectSend pick ctxDone ch = .sent ∧ ch.closed = false ∧ ch.canAccept = true) ∨
    (selectSend pick ctxDone ch = .dropped ∧ ch.closed = false ∧ ch.canAccept = false ∧
      ctxDone = false) ∨
    (selectSend pick ctxDone ch = .aborted ∧ ctxDone = true) ∨
    (selectSend pick ctxDone ch = .panicked ∧ ch.closed = true) := by
  unfold selectSend
  cases hc : ch.closed <;> cases hd : ctxDone <;> cases pick <;>
    cases hr : ch.canAccept <;> simp

theorem Run_cases (b : Broker) (pick : Bool) (order : List (String × ChanId)) :
    RunCase b order (b.Run pick order) := by
  unfold Broker.Run
  split
  · next hpc =>
    split
    · next hctx hin => exact RunCase.exitIdle hpc hctx
    · next msg rest hctx hin =>
      cases pick
      · exact RunCase.take msg rest hpc hin
      · exact RunCase.exitIdle hpc hctx
    · next msg rest hctx hin => exact RunCase.take msg rest hpc hin
    · next hctx hin =>
      refine RunCase.stay (Or.inl ⟨hpc, ?_, hin⟩)
      cases h : b.ctx
      · rfl
      · simp [h] at hctx
  · next msg hpc => exact RunCase.bcastEnd msg hpc
  · next msg c rest hpc =>
    rcases selectSend_cases pick b.ctx.isSome (b.chans c) with h | h | h | h
    · rw [h.1]
      exact RunCase.bcastSent msg c rest hpc h.2.1 h.2.2
    · rw [h.1]
      refine RunCase.bcastDropped msg c rest hpc h.2.1 h.2.2.1 ?_
      cases hc : b.ctx
      · rfl
      · simp [hc] at h
    · rw [h.1]
      exact RunCase.bcastAbort msg (c :: rest) hpc h.2
    · rw [h.1]
      exact RunCase.bcastPanic msg c rest hpc h.2
  · next msg hpc =>
    split
    · next hl => exact RunCase.directNone msg hpc hl
    · next c hl =>
      rcases selectSend_cases pick b.ctx.isSome (b.chans c) with h | h | h | h
      · rw [h.1]
        exact RunCase.directSent msg c hpc hl h.2.1 h.2.2
      · rw [h.1]
        refine RunCase.directDropped msg c hpc hl h.2.1 h.2.2.1 ?_
        cases hc : b.ctx
        · rfl
        · simp [hc] at h
      · rw [h.1]
        exact RunCase.directAbort msg hpc h.2
      · rw [h.1]
        exact RunCase.directPanic msg c hpc hl h.2
  · next hpc => exact RunCase.stay (Or.inr (Or.inl hpc))
  · next hpc => exact RunCase.stay (Or.inr (Or.inr hpc))

end chatcore

/-! ## Drop on full -/

namespace chatcore

theorem RunCase_chans (b b' : Broker) (order : List (String × ChanId))
    (h : RunCase b order b') :
    (b'.chans = b.chans ∧ b'.delivered = b.delivered) ∨
    ∃ c msg, (b.chans c).canAccept = true ∧ (b.chans c).closed = false ∧
      b'.chans = pushChan b.chans c msg ∧ b'.delivered = pushLog b.delivered c msg := by
  cases h with
  | bcastSent msg c rest hpc hc hr => exact Or.inr ⟨c, msg, hr, hc, rfl, rfl⟩
  | directSent msg c hpc hl hc hr => exact Or.inr ⟨c, msg, hr, hc, rfl, rfl⟩
  | _ => exact Or.inl ⟨rfl, rfl⟩

theorem SendMessage_cases (b b' : Broker) (pick : Bool) (msg : Message)
    (r : Option CtxError) (h : b.SendMessage pick msg = some (b', r)) :
    (b' = b ∧ r = b.ctx ∧ b.ctx.isSome = true) ∨
    (b' = { b with input := b.input ++ [msg], enq := b.enq ++ [msg] } ∧ r = none ∧
      b.input.length < inputCap) := by
  unfold Broker.SendMessage at h
  cases hc : b.ctx.isSome <;> by_cases hr : b.input.length < inputCap <;>
    cases pick <;> simp [hc, hr] at h
  all_goals first
    | exact Or.inl ⟨h.1.symm, h.2.symm, rfl⟩
    | exact Or.inr ⟨h.1.symm, h.2.symm, hr⟩

theorem push_heapOk (ch : Chan) (msg : Message) (hr : ch.canAccept = true)
    (hok : ch.buf.length ≤ ch.cap ∧ (0 < ch.waiting → ch.buf = [] ∧ ch.closed = false)) :
    (ch.push msg).buf.length ≤ (ch.push msg).cap ∧
    (0 < (ch.push msg).waiting → (ch.push msg).buf = [] ∧ (ch.push msg).closed = false) := by
  unfold Chan.canAccept at hr
  unfold Chan.push
  by_cases hw : 0 < ch.waiting
  · rw [if_pos hw]
    exact ⟨hok.1, fun _ => hok.2 hw⟩
  · rw [if_neg hw]
    have hlt : ch.buf.length < ch.cap := by
      simpa [hw] using hr
    refine ⟨?_, fun h => absurd h hw⟩
    simp only [List.length_append, List.length_singleton]
    omega

theorem recv_heapOk (ch : Chan)
    (hok : ch.buf.length ≤ ch.cap ∧ (0 < ch.waiting → ch.buf = [] ∧ ch.closed = false)) :
    ch.recv.buf.length ≤ ch.recv.cap ∧
    (0 < ch.recv.waiting → ch.recv.buf = [] ∧ ch.recv.closed = false) := by
  unfold Chan.recv
  split
  · next m rest hb =>
    rw [hb] at hok
    refine ⟨?_, ?_⟩
    · have := hok.1
      simp only [List.length_cons] at this
      show rest.length ≤ ch.cap
      omega
    · intro h
      have := (hok.2 h).1
      cases this
  · next hb =>
    by_cases hc : ch.closed = true
    · rw [if_pos hc]
      exact hok
    · rw [if_neg hc]
      refine ⟨hok.1, fun _ => ⟨hb, ?_⟩⟩
      simpa using hc

theorem Step_heapOk (b b' : Broker) (h : Step b b') (hok : HeapOk b.chans) :
    HeapOk b'.chans := by
  cases h with
  | cancel e =>
    unfold Broker.cancel
    split <;> exact hok
  | send pick msg _ r hs =>
    rcases SendMessage_cases b b' pick msg r hs with h | h
    · rw [h.1]; exact hok
    · rw [h.1]; exact hok
  | register u c hl => exact hok
  | unregister u hl => exact hok
  | run pick order hp =>
    rcases RunCase_chans b _ order (Run_cases b pick order) with h | ⟨c, msg, hr, _, hch, _⟩
    · rw [h.1]; exact hok
    · rw [hch]
      intro d
      unfold pushChan
      by_cases hd : d = c
      · simp only [hd, if_true]
        exact push_heapOk (b.chans c) msg hr (hok c)
      · simp only [hd, if_false]
        exact hok d
  | recv c =>
    intro d
    unfold Broker.recvChan
    by_cases hd : d = c
    · simp only [hd, if_true]
      exact recv_heapOk (b.chans c) (hok c)
    · simp only [hd, if_false]
      exact hok d
  | leave c =>
    intro d
    unfold Broker.leaveChan
    by_cases hd : d = c
    · simp only [hd, if_true, Chan.leave]
      refine ⟨(hok c).1, fun h => (hok c).2 ?_⟩
      omega
    · simp only [hd, if_false]
      exact hok d
  | close c =>
    intro d
    unfold Broker.closeChan
    by_cases hd : d = c
    · simp only [hd, if_true, Chan.close]
      exact ⟨(hok c).1, fun h => absurd h (Nat.lt_irrefl 0)⟩
    · simp only [hd, if_false]
      exact hok d

theorem Reach_heapOk (P : Broker → Prop) (b0 b : Broker) (h : Reach P b0 b)
    (hok : HeapOk b0.chans) : HeapOk b.chans := by
  induction h with
  | init => exact hok
  | step b1 b2 _ hs _ ih => exact Step_heapOk b1 b2 hs ih

/-- C4, counterexample: three dispatches of a broadcast over an endpoint at capacity
(channel 0, registered for "alice"; "bob" has the open, empty channel 1 of capacity 1).
In the first, channel 0 is closed and full and shutdown has not fired: the send panics.
In the second, channel 0 is open and full and the shutdown signal fires after the message
was dequeued: `Run` returns.  Both times bob's endpoint is never tried.  In the third,
channel 0 is unbuffered (capacity 0, nothing buffered) and a receiver is waiting on it:
the message is not discarded, the send hands it to the receiver. -/
theorem full_endpoint_stops_broadcast_counterexample :
    (((scene none (closedHeap [sampleDirect]) sampleBroadcast).chans 0).buf.length
        = ((scene none (closedHeap [sampleDirect]) sampleBroadcast).chans 0).cap ∧
     ((scene none (closedHeap [sampleDirect]) sampleBroadcast).chans 1).canAccept = true ∧
     ((scene none (closedHeap [sampleDirect]) sampleBroadcast).RunN
        (constChoice twoUsers) 4).pc = PC.panicked ∧
     (((scene none (closedHeap [sampleDirect]) sampleBroadcast).RunN
        (constChoice twoUsers) 4).chans 1).buf = []) ∧
    (((scene none (heapWith ⟨1, [sampleDirect], false, 0⟩) sampleBroadcast).chans 0).buf.length
        = ((scene none (heapWith ⟨1, [sampleDirect], false, 0⟩) sampleBroadcast).chans 0).cap ∧
     ((scene none (heapWith ⟨1, [sampleDirect], false, 0⟩) sampleBroadcast).chans 1).canAccept
        = true ∧
     ((((scene none (heapWith ⟨1, [sampleDirect], false, 0⟩) sampleBroadcast).Run false
        twoUsers).cancel CtxError.Canceled).RunN (constChoice twoUsers) 3).pc = PC.exited ∧
     (((((scene none (heapWith ⟨1, [sampleDirect], false, 0⟩) sampleBroadcast).Run false
        twoUsers).cancel CtxError.Canceled).RunN (constChoice twoUsers) 3).chans 1).buf
        = []) ∧
    (((scene none (heapWith ⟨0, [], false, 1⟩) sampleBroadcast).chans 0).buf.length
        = ((scene none (heapWith ⟨0, [], false, 1⟩) sampleBroadcast).chans 0).cap ∧
     ((scene none (heapWith ⟨0, [], false, 1⟩) sampleBroadcast).RunN
        (constChoice twoUsers) 4).delivered 0 = [sampleBroadcast] ∧
     (((scene none (heapWith ⟨0, [], false, 1⟩) sampleBroadcast).RunN
        (constChoice twoUsers) 4).chans 0).waiting = 0) := by
  decide

/-- C4, amended: drop on full.  In every step of `Run` an endpoint that cannot accept a
message (its buffer is at capacity and no receiver is waiting on it) is left exactly as it
was: nothing is added, nothing evicted.  When moreover the shutdown signal has not fired
and the endpoint is not closed, the step changes nothing but the position of `Run`: in a
broadcast the loop goes on with the remaining recipients, in a direct dispatch the read
lock is released and `Run` is back at its idle wait; no error, no retry.  And in every
state reachable from a new broker no endpoint holds more messages than its capacity. -/
theorem drop_on_full (b : Broker) :
    (∀ pick order d, (b.chans d).canAccept = false →
      (b.Run pick order).chans d = b.chans d ∧
      (b.Run pick order).delivered d = b.delivered d) ∧
    (∀ pick order msg c rest, b.pc = .bcast msg (c :: rest) → b.ctx = none →
      (b.chans c).closed = false → (b.chans c).canAccept = false →
      b.Run pick order = { b with pc := .bcast msg rest }) ∧
    (∀ pick order msg c, b.pc = .direct msg → b.ctx = none →
      lookupUser msg.Recipient b.users = some c →
      (b.chans c).closed = false → (b.chans c).canAccept = false →
      b.Run pick order = { b with rlocked := false, pc := .idle }) ∧
    (∀ ctx heap, HeapOk heap → Reach (fun _ => True) (NewBroker ctx heap) b →
      ∀ c, (b.chans c).buf.length ≤ (b.chans c).cap) := by
  refine ⟨?_, ?_, ?_, ?_⟩
  · intro pick order d hd
    rcases RunCase_chans b _ order (Run_cases b pick order) with h | ⟨c, msg, hr, _, hch, hdl⟩
    · rw [h.1, h.2]
      exact ⟨rfl, rfl⟩
    · have hne : d ≠ c := by
        intro h
        rw [h, hr] at hd
        cases hd
      rw [hch, hdl]
      simp [pushChan, pushLog, hne]
  · intro pick order msg c rest hpc hctx hc hr
    rw [Run_bcast_cons b pick order msg c rest hpc hctx hc]
    simp [hr]
  · intro pick order msg c hpc hctx hl hc hr
    rw [Run_direct_some b pick order msg c hpc hctx hl hc]
    simp [hr, Broker.unlockIdle]
  · intro ctx heap hok hreach c
    exact (Reach_heapOk _ _ b hreach hok c).1

/-- C4, amended, at a concrete state: alice's endpoint (channel 0) is open and full, a
broadcast is queued; after the dispatch alice's endpoint is as before. -/
theorem drop_on_full_witness :
    ((scene none (heapWith ⟨1, [sampleDirect], false, 0⟩) sampleBroadcast).Run false
        twoUsers).Run false twoUsers =
      { (scene none (heapWith ⟨1, [sampleDirect], false, 0⟩) sampleBroadcast).Run false
          twoUsers
        with pc := .bcast sampleBroadcast [1] } :=
  (drop_on_full ((scene none (heapWith ⟨1, [sampleDirect], false, 0⟩) sampleBroadcast).Run
    false twoUsers)).2.1 false twoUsers sampleBroadcast 0 [1] rfl rfl rfl rfl

end chatcore

/-! ## Submission -/

namespace chatcore

/-- C5, counterexample: the context of the broker is already cancelled and the inbound
queue is empty.  Both cases of the `select` in `SendMessage` are ready; when the runtime
takes the send case the call returns `nil` and the message is on the inbound queue.  `Run`
can then still take it (its outer `select` has two ready cases as well) and, the inner
`select` being no different, deliver it to alice's endpoint. -/
theorem SendMessage_after_cancel_counterexample :
    ((NewBroker (some CtxError.Canceled) (openHeap 1)).SendMessage false sampleDirect).map
        (fun r => (r.1.input, r.2)) = some ([sampleDirect], none) ∧
    (scene (some CtxError.Canceled) (openHeap 1) sampleDirect).ctx
      = some CtxError.Canceled ∧
    (scene (some CtxError.Canceled) (openHeap 1) sampleDirect).input = [sampleDirect] ∧
    (((scene (some CtxError.Canceled) (openHeap 1) sampleDirect).RunN
        (constChoice twoUsers) 2).chans 0).buf = [sampleDirect] := by
  decide

/-- C5, amended: a call of `SendMessage` made after the cancellation signal has fired
never blocks and ends in one of two ways.  Either it returns the shutdown error (the
error of the context, not nil) and the broker is unchanged, the message not being placed
on the inbound queue; or, only when the inbound queue has free space and the runtime takes
the send case of the `select`, it places the message on the queue and returns nil.  When
the inbound queue is full, and whenever the runtime takes the context case, the shutdown
error is returned; and an error is never returned together with an enqueued message. -/
theorem SendMessage_after_cancel (b : Broker) (pick : Bool) (msg : Message) (e : CtxError)
    (hctx : b.ctx = some e) :
    (b.SendMessage pick msg = some (b, some e) ∨
      (b.input.length < inputCap ∧ pick = false ∧
        b.SendMessage pick msg =
          some ({ b with input := b.input ++ [msg], enq := b.enq ++ [msg] }, none))) ∧
    (inputCap ≤ b.input.length → b.SendMessage pick msg = some (b, some e)) ∧
    (pick = true → b.SendMessage pick msg = some (b, some e)) ∧
    (∀ b' r, b.SendMessage pick msg = some (b', some r) → b' = b ∧ r = e) := by
  have hsome : b.ctx.isSome = true := by simp [hctx]
  refine ⟨?_, ?_, ?_, ?_⟩
  · unfold Broker.SendMessage
    by_cases hr : b.input.length < inputCap
    · cases pick
      · exact Or.inr ⟨hr, rfl, by simp [hsome, hr]⟩
      · exact Or.inl (by simp [hsome, hr, hctx])
    · exact Or.inl (by simp [hsome, hr, hctx])
  · intro hfull
    have hr : ¬ b.input.length < inputCap := by omega
    unfold Broker.SendMessage
    simp [hsome, hr, hctx]
  · intro hp
    unfold Broker.SendMessage
    by_cases hr : b.input.length < inputCap <;> simp [hsome, hr, hctx, hp]
  · intro b' r h
    rcases SendMessage_cases b b' pick msg (some r) h with h1 | h1
    · refine ⟨h1.1, ?_⟩
      have := h1.2.1
      rw [hctx] at this
      exact Option.some.inj this
    · cases h1.2.1

/-- C5, amended, at a concrete state: a new broker whose context is cancelled; with the
runtime taking the context case the call returns the error and changes nothing. -/
theorem SendMessage_after_cancel_witness :
    (NewBroker (some CtxError.Canceled) (openHeap 1)).SendMessage true sampleDirect
      = some (NewBroker (some CtxError.Canceled) (openHeap 1), some CtxError.Canceled) :=
  (SendMessage_after_cancel (NewBroker (some CtxError.Canceled) (openHeap 1)) true
    sampleDirect CtxError.Canceled rfl).2.2.1 rfl

theorem RunCase_frame (b b' : Broker) (order : List (String × ChanId))
    (h : RunCase b order b') :
    b'.users = b.users ∧ b'.ctx = b.ctx ∧ b'.enq = b.enq ∧
    b'.input.length ≤ b.input.length := by
  cases h with
  | take msg rest hpc hin =>
    refine ⟨rfl, rfl, rfl, ?_⟩
    simp only [Broker.takeMsg]
    rw [hin]
    simp
  | _ => exact ⟨rfl, rfl, rfl, Nat.le_refl _⟩

theorem Step_input_le (b b' : Broker) (h : Step b b')
    (hle : b.input.length ≤ inputCap) : b'.input.length ≤ inputCap := by
  cases h with
  | cancel e =>
    unfold Broker.cancel
    split <;> exact hle
  | send pick msg _ r hs =>
    rcases SendMessage_cases b b' pick msg r hs with h | h
    · rw [h.1]; exact hle
    · rw [h.1]
      simp only [List.length_append, List.length_singleton]
      have := h.2.2
      omega
  | register u c hl => exact hle
  | unregister u hl => exact hle
  | run pick order hp =>
    have hc := (RunCase_frame b _ order (Run_cases b pick order)).2.2.2
    omega
  | recv c => exact hle
  | leave c => exact hle
  | close c => exact hle

theorem Reach_input_le (P : Broker → Prop) (b0 b : Broker) (h : Reach P b0 b)
    (hle : b0.input.length ≤ inputCap) : b.input.length ≤ inputCap := by
  induction h with
  | init => exact hle
  | step b1 b2 _ hs _ ih => exact Step_input_le b1 b2 hs ih

theorem submitAll_input (msgs : List Message) (b : Broker) (hctx : b.ctx = none)
    (hlen : b.input.length + msgs.length ≤ inputCap) :
    (submitAll b msgs).input = b.input ++ msgs ∧ (submitAll b msgs).ctx = none := by
  induction msgs generalizing b with
  | nil => simp [submitAll, hctx]
  | cons m ms ih =>
    simp only [List.length_cons] at hlen
    have hr : b.input.length < inputCap := by omega
    have hs : submit b false m = { b with input := b.input ++ [m], enq := b.enq ++ [m] } := by
      unfold submit Broker.SendMessage
      simp [hctx, hr]
    have h := ih (submit b false m) (by rw [hs]; exact hctx)
      (by rw [hs]; simp only [List.length_append, List.length_singleton]; omega)
    unfold submitAll at h ⊢
    rw [List.foldl_cons, h.1, h.2, hs]
    simp

/-- C6: the inbound queue has capacity 100.  `NewBroker` creates it empty.  While the
shutdown signal has not fired, `SendMessage` returns nil with the message appended at the
tail of the inbound queue exactly when the queue holds fewer than 100 messages; the call
stays blocked exactly when shutdown has not fired and the queue holds 100 or more, so it
completes only once a message was dequeued or the signal fired; and in every state
reachable from a new broker the inbound queue holds at most 100 messages. -/
theorem inbound_queue_bounded (b : Broker) (pick : Bool) (msg : Message) :
    inputCap = 100 ∧
    (∀ ctx heap, (NewBroker ctx heap).input = []) ∧
    (b.ctx = none →
      (b.SendMessage pick msg =
          some ({ b with input := b.input ++ [msg], enq := b.enq ++ [msg] }, none)
        ↔ b.input.length < 100)) ∧
    (b.SendMessage pick msg = none ↔ b.ctx = none ∧ 100 ≤ b.input.length) ∧
    (∀ ctx heap, Reach (fun _ => True) (NewBroker ctx heap) b → b.input.length ≤ 100) := by
  refine ⟨rfl, fun _ _ => rfl, ?_, ?_, ?_⟩
  · intro hctx
    unfold Broker.SendMessage
    by_cases hr : b.input.length < inputCap
    · have hr' : b.input.length < 100 := hr
      simp [hctx, hr, hr']
    · have hr' : ¬ b.input.length < 100 := hr
      simp [hctx, hr, hr']
  · unfold Broker.SendMessage
    cases hc : b.ctx with
    | none =>
      by_cases hr : b.input.length < inputCap
      · have hr' : ¬ 100 ≤ b.input.length := by
          unfold inputCap at hr
          omega
        simp [hr, hr']
      · have hr' : 100 ≤ b.input.length := by
          unfold inputCap at hr
          omega
        simp [hr, hr']
    | some e =>
      by_cases hr : b.input.length < inputCap <;> cases pick <;> simp [hr]
  · intro ctx heap hreach
    exact Reach_input_le _ _ b hreach (by simp [NewBroker])

/-- C6 at a concrete state: after 100 messages were submitted to a new broker with no
`Run` loop draining it, the 101st `SendMessage` is blocked. -/
theorem inbound_queue_bounded_witness :
    (submitAll (NewBroker none (openHeap 1)) (List.replicate 100 sampleDirect)).SendMessage
      false sampleDirect = none :=
  (inbound_queue_bounded
    (submitAll (NewBroker none (openHeap 1)) (List.replicate 100 sampleDirect)) false
    sampleDirect).2.2.2.1.2
    ⟨(submitAll_input (List.replicate 100 sampleDirect) (NewBroker none (openHeap 1)) rfl
        (by simp [NewBroker, inputCap])).2,
     by
      rw [(submitAll_input (List.replicate 100 sampleDirect) (NewBroker none (openHeap 1)) rfl
        (by simp [NewBroker, inputCap])).1]
      simp [NewBroker]⟩

end chatcore

/-! ## Termination of the loop -/

namespace chatcore

theorem RunCase_loopInv (b b' : Broker) (order : List (String × ChanId))
    (h : RunCase b order b') (hperm : order.Perm b.users) (hinv : LoopInv b) :
    LoopInv b' := by
  unfold LoopInv at hinv
  cases h with
  | stay hs => unfold LoopInv; exact hinv
  | exitIdle hpc hctx =>
    rw [hpc] at hinv
    simp [LoopInv, Broker.exitIdle, hinv.1, hctx]
  | take msg rest hpc hin =>
    rw [hpc] at hinv
    by_cases hb : msg.Broadcast = true
    · simp only [LoopInv, Broker.takeMsg, hb, if_true, hinv.2, true_and]
      intro c hc
      obtain ⟨p, hp, rfl⟩ := List.mem_map.1 hc
      exact ⟨p.1, hperm.mem_iff.1 hp⟩
    · simp [LoopInv, Broker.takeMsg, hb, hinv.2]
  | bcastEnd msg hpc =>
    rw [hpc] at hinv
    simp [LoopInv, Broker.unlockIdle, hinv.2.1]
  | bcastSent msg c rest hpc hc hr =>
    rw [hpc] at hinv
    simp only [LoopInv, Broker.deliver, hinv.1, hinv.2.1, true_and]
    intro d hd
    exact hinv.2.2 d (List.mem_cons_of_mem _ hd)
  | bcastDropped msg c rest hpc hc hr hctx =>
    rw [hpc] at hinv
    simp only [LoopInv, hinv.1, hinv.2.1, true_and]
    intro d hd
    exact hinv.2.2 d (List.mem_cons_of_mem _ hd)
  | bcastAbort msg l hpc hctx =>
    simp [LoopInv, Broker.exitAbort, hctx]
  | bcastPanic msg c rest hpc hc =>
    rw [hpc] at hinv
    simp only [LoopInv, Broker.panicSend, hinv.1, true_and]
    obtain ⟨u, hu⟩ := hinv.2.2 c (List.mem_cons_self _ _)
    exact ⟨(u, c), hu, hc⟩
  | directNone msg hpc hl =>
    rw [hpc] at hinv
    simp [LoopInv, Broker.unlockIdle, hinv.2]
  | directSent msg c hpc hl hc hr =>
    rw [hpc] at hinv
    simp [LoopInv, Broker.unlockIdle, Broker.deliver, hinv.2]
  | directDropped msg c hpc hl hc hr hctx =>
    rw [hpc] at hinv
    simp [LoopInv, Broker.unlockIdle, hinv.2]
  | directAbort msg hpc hctx =>
    simp [LoopInv, Broker.exitAbort, hctx]
  | directPanic msg c hpc hl hc =>
    rw [hpc] at hinv
    simp only [LoopInv, Broker.panicSend, hinv.1, true_and]
    exact ⟨(msg.Recipient, c), lookupUser_mem _ _ _ hl, hc⟩

theorem LoopInv_frame (b b' : Broker) (hpc : b'.pc = b.pc) (hl : b'.rlocked = b.rlocked)
    (hd : b'.done = b.done) (hu : b'.users = b.users)
    (hctx : b.ctx.isSome = true → b'.ctx.isSome = true)
    (hcl : ∀ d, (b.chans d).closed = true → (b'.chans d).closed = true)
    (hinv : LoopInv b) : LoopInv b' := by
  unfold LoopInv at hinv ⊢
  rw [hpc, hl, hd, hu]
  cases h : b.pc with
  | idle => rw [h] at hinv; exact hinv
  | bcast msg rest => rw [h] at hinv; exact hinv
  | direct msg => rw [h] at hinv; exact hinv
  | exited =>
    rw [h] at hinv
    exact ⟨hinv.1, hinv.2.1, hctx hinv.2.2⟩
  | panicked =>
    rw [h] at hinv
    obtain ⟨p, hp, hc⟩ := hinv.2.2
    exact ⟨hinv.1, hinv.2.1, p, hp, hcl _ hc⟩

theorem LoopInv_users (b : Broker) (users : List (String × ChanId))
    (hl : b.rlocked = false) (hinv : LoopInv b) : LoopInv { b with users := users } := by
  unfold LoopInv at hinv ⊢
  cases h : b.pc with
  | idle => rw [h] at hinv; simpa [h] using hinv
  | bcast msg rest =>
    rw [h] at hinv
    rw [hl] at hinv
    cases hinv.1
  | direct msg =>
    rw [h] at hinv
    rw [hl] at hinv
    cases hinv.1
  | exited => rw [h] at hinv; simpa [h] using hinv
  | panicked =>
    rw [h] at hinv
    rw [hl] at hinv
    cases hinv.1

theorem Step_loopInv (b b' : Broker) (h : Step b b') (hinv : LoopInv b) : LoopInv b' := by
  cases h with
  | cancel e =>
    unfold Broker.cancel
    split
    · exact LoopInv_frame b _ rfl rfl rfl rfl (fun _ => rfl) (fun _ h => h) hinv
    · exact hinv
  | send pick msg _ r hs =>
    rcases SendMessage_cases b b' pick msg r hs with h | h
    · rw [h.1]; exact hinv
    · rw [h.1]
      exact LoopInv_frame b _ rfl rfl rfl rfl (fun h => h) (fun _ h => h) hinv
  | register u c hl => exact LoopInv_users b _ hl hinv
  | unregister u hl => exact LoopInv_users b _ hl hinv
  | run pick order hp => exact RunCase_loopInv b _ order (Run_cases b pick order) hp hinv
  | recv c =>
    refine LoopInv_frame b _ rfl rfl rfl rfl (fun h => h) ?_ hinv
    intro d hd
    unfold Broker.recvChan
    by_cases hdc : d = c
    · subst hdc
      simp only [if_true]
      unfold Chan.recv
      split
      · exact hd
      · split
        · exact hd
        · exact hd
    · simpa [hdc] using hd
  | leave c =>
    refine LoopInv_frame b _ rfl rfl rfl rfl (fun h => h) ?_ hinv
    intro d hd
    unfold Broker.leaveChan
    by_cases hdc : d = c
    · subst hdc
      simpa [Chan.leave] using hd
    · simpa [hdc] using hd
  | close c =>
    refine LoopInv_frame b _ rfl rfl rfl rfl (fun h => h) ?_ hinv
    intro d hd
    unfold Broker.closeChan
    by_cases hdc : d = c
    · simp [hdc, Chan.close]
    · simpa [hdc] using hd

theorem Reach_loopInv (P : Broker → Prop) (b0 b : Broker) (h : Reach P b0 b)
    (hinv : LoopInv b0) : LoopInv b := by
  induction h with
  | init => exact hinv
  | step b1 b2 _ hs _ ih => exact Step_loopInv b1 b2 hs ih

end chatcore

namespace chatcore

/-- C9, counterexample: a state reachable from a new broker (register "alice" with the
closed channel 0 and "bob" with channel 1, submit a broadcast, let `Run` take it and
visit alice's endpoint) in which the loop has stopped by a panic although the shutdown
signal has not fired, `done` is closed by the deferred call and the read lock is still
held. -/
theorem Run_stops_without_shutdown_counterexample :
    Reach (fun _ => True) (NewBroker none (closedHeap []))
      ((scene none (closedHeap []) sampleBroadcast).RunN (constChoice twoUsers) 2) ∧
    ((scene none (closedHeap []) sampleBroadcast).RunN (constChoice twoUsers) 2).pc
      = PC.panicked ∧
    ((scene none (closedHeap []) sampleBroadcast).RunN (constChoice twoUsers) 2).ctx = none ∧
    ((scene none (closedHeap []) sampleBroadcast).RunN (constChoice twoUsers) 2).done = true ∧
    ((scene none (closedHeap []) sampleBroadcast).RunN (constChoice twoUsers) 2).rlocked
      = true := by
  refine ⟨?_, by decide, by decide, by decide, by decide⟩
  have h0 : Reach (fun _ => True) (NewBroker none (closedHeap []))
      (NewBroker none (closedHeap [])) := Reach.init
  have h1 := Reach.step _ _ h0 (Step.register _ "alice" 0 rfl) trivial
  have h2 := Reach.step _ _ h1 (Step.register _ "bob" 1 rfl) trivial
  have h3 := Reach.step _ (scene none (closedHeap []) sampleBroadcast) h2
    (Step.send _ false sampleBroadcast _ none rfl) trivial
  have h4 := Reach.step _ _ h3 (Step.run _ false twoUsers (List.Perm.refl _)) trivial
  exact Reach.step _ _ h4 (Step.run _ false twoUsers (List.Perm.refl _)) trivial

/-- C9, amended: in every state reachable from a new broker, `Run` has returned only if
the shutdown signal has fired, and then, whether it returned from the idle wait or from
the middle of a broadcast or direct dispatch, `done` is closed and the read lock is
released; `done` is closed only when the loop is no longer running (it has returned or
panicked); while the loop waits `done` is open and the lock free, and inside a dispatch
`done` is open and the lock held.  No message and no registry content stops the loop;
the only other way it stops is the panic of a send on a closed endpoint, which needs a
registered endpoint that is closed. -/
theorem Run_exits_on_shutdown (ctx : Option CtxError) (heap : ChanId → Chan) (b : Broker)
    (h : Reach (fun _ => True) (NewBroker ctx heap) b) :
    (b.pc = .exited → b.ctx.isSome = true ∧ b.done = true ∧ b.rlocked = false) ∧
    (b.done = true ↔ b.pc = .exited ∨ b.pc = .panicked) ∧
    (b.pc = .idle → b.done = false ∧ b.rlocked = false) ∧
    (∀ msg rest, b.pc = .bcast msg rest → b.done = false ∧ b.rlocked = true) ∧
    (∀ msg, b.pc = .direct msg → b.done = false ∧ b.rlocked = true) ∧
    (b.pc = .panicked → ∃ p ∈ b.users, (b.chans p.2).closed = true) ∧
    (AllOpen b → b.pc ≠ .panicked) := by
  have hinv : LoopInv b := Reach_loopInv _ _ b h (by simp [LoopInv, NewBroker])
  unfold LoopInv at hinv
  cases hpc : b.pc with
  | idle =>
    rw [hpc] at hinv
    simp [hinv.1, hinv.2]
  | bcast msg rest =>
    rw [hpc] at hinv
    simp [hinv.1, hinv.2.1]
  | direct msg =>
    rw [hpc] at hinv
    simp [hinv.1, hinv.2]
  | exited =>
    rw [hpc] at hinv
    simp [hinv.1, hinv.2.1, hinv.2.2]
  | panicked =>
    rw [hpc] at hinv
    obtain ⟨p, hp, hc⟩ := hinv.2.2
    simp only [hinv.2.1, reduceCtorEq, false_implies, or_true, true_and, forall_true_left,
      ne_eq, not_true_eq_false, imp_false, implies_true]
    refine ⟨⟨p, hp, hc⟩, ?_⟩
    intro hopen
    rw [hopen p hp] at hc
    cases hc

/-- C9, amended, at a concrete state: the context is cancelled while a broadcast is being
dispatched; `Run` returns from the middle of the loop with `done` closed and the lock
released. -/
theorem Run_exits_on_shutdown_witness :
    cancelledMidBroadcast.pc = PC.exited ∧
    cancelledMidBroadcast.ctx.isSome = true ∧ cancelledMidBroadcast.done = true ∧
    cancelledMidBroadcast.rlocked = false :=
  ⟨by decide,
   (Run_exits_on_shutdown none (openHeap 1) cancelledMidBroadcast
    (Reach.step _ _
      (Reach.step _ _
        (Reach.step _ _
          (Reach.step _ (scene none (openHeap 1) sampleBroadcast)
            (Reach.step _ _
              (Reach.step _ _ Reach.init (Step.register _ "alice" 0 rfl) trivial)
              (Step.register _ "bob" 1 rfl) trivial)
            (Step.send _ false sampleBroadcast _ none rfl) trivial)
          (Step.run _ false twoUsers (List.Perm.refl _)) trivial)
        (Step.cancel _ CtxError.Canceled) trivial)
      (Step.run _ true twoUsers (List.Perm.refl _)) trivial)).1 (by decide)⟩

end chatcore

/-! ## Order of dispatch -/

namespace chatcore

theorem sublist_append_one {l pre : List Message} (m : Message) (h : l.Sublist pre) :
    l.Sublist (pre ++ [m]) :=
  h.trans (List.sublist_append_left pre [m])

theorem sublist_snoc {l pre : List Message} (m : Message) (h : l.Sublist pre) :
    (l ++ [m]).Sublist (pre ++ [m]) :=
  List.Sublist.append h (List.Sublist.refl [m])

theorem RunCase_deliveredInv (b b' : Broker) (order : List (String × ChanId))
    (h : RunCase b order b') (hperm : order.Perm b.users) (hex : Exclusive b)
    (hinv : DeliveredInv b) : DeliveredInv b' := by
  unfold DeliveredInv at hinv
  cases h with
  | stay hs => unfold DeliveredInv; exact hinv
  | exitIdle hpc hctx =>
    rw [hpc] at hinv
    simpa [DeliveredInv, Broker.exitIdle] using hinv
  | take msg rest hpc hin =>
    rw [hpc] at hinv
    by_cases hb : msg.Broadcast = true
    · simp only [DeliveredInv, Broker.takeMsg, hb, if_true]
      refine ⟨(hperm.map Prod.snd).nodup_iff.2 hex, b.deq, rfl, ?_⟩
      intro c
      split
      · exact hinv c
      · exact sublist_append_one msg (hinv c)
    · simp only [DeliveredInv, Broker.takeMsg, hb]
      exact ⟨b.deq, rfl, hinv⟩
  | bcastEnd msg hpc =>
    rw [hpc] at hinv
    obtain ⟨_, pre, hdeq, hsub⟩ := hinv
    simp only [DeliveredInv, Broker.unlockIdle]
    intro c
    simpa using hsub c
  | bcastSent msg c rest hpc hc hr =>
    rw [hpc] at hinv
    obtain ⟨hnd, pre, hdeq, hsub⟩ := hinv
    have hnd' := List.nodup_cons.1 hnd
    simp only [DeliveredInv, Broker.deliver]
    refine ⟨hnd'.2, pre, hdeq, ?_⟩
    intro d
    by_cases hd : d = c
    · subst hd
      have h1 := hsub d
      simp only [List.mem_cons, true_or, if_true] at h1
      simp only [pushLog, if_true, hnd'.1, if_false, hdeq]
      exact sublist_snoc msg h1
    · have h1 := hsub d
      simp only [List.mem_cons, hd, false_or] at h1
      simpa [pushLog, hd] using h1
  | bcastDropped msg c rest hpc hc hr hctx =>
    rw [hpc] at hinv
    obtain ⟨hnd, pre, hdeq, hsub⟩ := hinv
    have hnd' := List.nodup_cons.1 hnd
    simp only [DeliveredInv]
    refine ⟨hnd'.2, pre, hdeq, ?_⟩
    intro d
    by_cases hd : d = c
    · subst hd
      have h1 := hsub d
      simp only [List.mem_cons, true_or, if_true] at h1
      simp only [hnd'.1, if_false, hdeq]
      exact sublist_append_one msg h1
    · have h1 := hsub d
      simp only [List.mem_cons, hd, false_or] at h1
      exact h1
  | bcastAbort msg l hpc hctx =>
    rw [hpc] at hinv
    obtain ⟨_, pre, hdeq, hsub⟩ := hinv
    simp only [DeliveredInv, Broker.exitAbort]
    intro c
    have h1 := hsub c
    split at h1
    · rw [hdeq]
      exact sublist_append_one msg h1
    · exact h1
  | bcastPanic msg c rest hpc hc =>
    rw [hpc] at hinv
    obtain ⟨_, pre, hdeq, hsub⟩ := hinv
    simp only [DeliveredInv, Broker.panicSend]
    intro d
    have h1 := hsub d
    split at h1
    · rw [hdeq]
      exact sublist_append_one msg h1
    · exact h1
  | directNone msg hpc hl =>
    rw [hpc] at hinv
    obtain ⟨pre, hdeq, hsub⟩ := hinv
    simp only [DeliveredInv, Broker.unlockIdle]
    intro c
    rw [hdeq]
    exact sublist_append_one msg (hsub c)
  | directSent msg c hpc hl hc hr =>
    rw [hpc] at hinv
    obtain ⟨pre, hdeq, hsub⟩ := hinv
    simp only [DeliveredInv, Broker.unlockIdle, Broker.deliver]
    intro d
    rw [hdeq]
    by_cases hd : d = c
    · subst hd
      simp only [pushLog, if_true]
      exact sublist_snoc msg (hsub d)
    · simp only [pushLog, hd, if_false]
      exact sublist_append_one msg (hsub d)
  | directDropped msg c hpc hl hc hr hctx =>
    rw [hpc] at hinv
    obtain ⟨pre, hdeq, hsub⟩ := hinv
    simp only [DeliveredInv, Broker.unlockIdle]
    intro c
    rw [hdeq]
    exact sublist_append_one msg (hsub c)
  | directAbort msg hpc hctx =>
    rw [hpc] at hinv
    obtain ⟨pre, hdeq, hsub⟩ := hinv
    simp only [DeliveredInv, Broker.exitAbort]
    intro c
    rw [hdeq]
    exact sublist_append_one msg (hsub c)
  | directPanic msg c hpc hl hc =>
    rw [hpc] at hinv
    obtain ⟨pre, hdeq, hsub⟩ := hinv
    simp only [DeliveredInv, Broker.panicSend]
    intro c
    rw [hdeq]
    exact sublist_append_one msg (hsub c)

theorem DeliveredInv_frame (b b' : Broker) (hpc : b'.pc = b.pc) (hd : b'.deq = b.deq)
    (hl : b'.delivered = b.delivered) (hinv : DeliveredInv b) : DeliveredInv b' := by
  unfold DeliveredInv at hinv ⊢
  rw [hpc, hd, hl]
  exact hinv

theorem Step_deliveredInv (b b' : Broker) (h : Step b b') (hex : Exclusive b)
    (hinv : DeliveredInv b) : DeliveredInv b' := by
  cases h with
  | cancel e =>
    unfold Broker.cancel
    split
    · exact DeliveredInv_frame b _ rfl rfl rfl hinv
    · exact hinv
  | send pick msg _ r hs =>
    rcases SendMessage_cases b b' pick msg r hs with h | h
    · rw [h.1]; exact hinv
    · rw [h.1]
      exact DeliveredInv_frame b _ rfl rfl rfl hinv
  | register u c hl => exact DeliveredInv_frame b _ rfl rfl rfl hinv
  | unregister u hl => exact DeliveredInv_frame b _ rfl rfl rfl hinv
  | run pick order hp =>
    exact RunCase_deliveredInv b _ order (Run_cases b pick order) hp hex hinv
  | recv c => exact DeliveredInv_frame b _ rfl rfl rfl hinv
  | leave c => exact DeliveredInv_frame b _ rfl rfl rfl hinv
  | close c => exact DeliveredInv_frame b _ rfl rfl rfl hinv

theorem RunCase_fifo (b b' : Broker) (order : List (String × ChanId))
    (h : RunCase b order b') (hinv : b.deq ++ b.input = b.enq) :
    b'.deq ++ b'.input = b'.enq := by
  cases h with
  | take msg rest hpc hin =>
    simp only [Broker.takeMsg]
    rw [← hinv, hin]
    simp
  | _ => exact hinv

theorem Step_fifo (b b' : Broker) (h : Step b b') (hinv : b.deq ++ b.input = b.enq) :
    b'.deq ++ b'.input = b'.enq := by
  cases h with
  | cancel e =>
    unfold Broker.cancel
    split <;> exact hinv
  | send pick msg _ r hs =>
    rcases SendMessage_cases b b' pick msg r hs with h | h
    · rw [h.1]; exact hinv
    · rw [h.1]
      simp only
      rw [← hinv, List.append_assoc]
  | register u c hl => exact hinv
  | unregister u hl => exact hinv
  | run pick order hp => exact RunCase_fifo b _ order (Run_cases b pick order) hinv
  | recv c => exact hinv
  | leave c => exact hinv
  | close c => exact hinv

theorem Reach_fifo (P : Broker → Prop) (b0 b : Broker) (h : Reach P b0 b)
    (hinv : b0.deq ++ b0.input = b0.enq) : b.deq ++ b.input = b.enq := by
  induction h with
  | init => exact hinv
  | step b1 b2 _ hs _ ih => exact Step_fifo b1 b2 hs ih

theorem Reach_holds (P : Broker → Prop) (b0 b : Broker) (h : Reach P b0 b) (h0 : P b0) :
    P b := by
  cases h with
  | init => exact h0
  | step b1 _ _ _ hp => exact hp

theorem Reach_deliveredInv (b0 b : Broker) (h : Reach Exclusive b0 b) (hex : Exclusive b0)
    (hinv : DeliveredInv b0) : DeliveredInv b := by
  induction h with
  | init => exact hinv
  | step b1 b2 hr hs _ ih =>
    exact Step_deliveredInv b1 b2 hs (Reach_holds Exclusive b0 b1 hr hex) ih

theorem DeliveredInv_sublist (b : Broker) (hinv : DeliveredInv b) (c : ChanId) :
    (b.delivered c).Sublist b.deq := by
  unfold DeliveredInv at hinv
  cases hpc : b.pc with
  | idle => rw [hpc] at hinv; exact hinv c
  | exited => rw [hpc] at hinv; exact hinv c
  | panicked => rw [hpc] at hinv; exact hinv c
  | direct msg =>
    rw [hpc] at hinv
    obtain ⟨pre, hdeq, hsub⟩ := hinv
    rw [hdeq]
    exact sublist_append_one msg (hsub c)
  | bcast msg rest =>
    rw [hpc] at hinv
    obtain ⟨_, pre, hdeq, hsub⟩ := hinv
    have h1 := hsub c
    split at h1
    · rw [hdeq]
      exact sublist_append_one msg h1
    · exact h1

end chatcore

/-! ## Draining the inbound queue -/

namespace chatcore

theorem exclusive_same_user (l : List (String × ChanId)) (h : (l.map Prod.snd).Nodup)
    (u v : String) (c : ChanId) (hu : (u, c) ∈ l) (hv : (v, c) ∈ l) : u = v := by
  have := List.inj_on_of_nodup_map h hu hv rfl
  exact (Prod.mk.inj this).1

theorem exclusive_count_one (l : List (String × ChanId)) (h : (l.map Prod.snd).Nodup)
    (u : String) (c : ChanId) (hu : (u, c) ∈ l) : (l.map Prod.snd).count c = 1 := by
  have h1 := count_snd_pos u c l hu
  have h2 := List.nodup_iff_count_le_one.1 h c
  omega

/-- One dispatch, seen from the endpoint `c` of user `u`: the state after it is the state
before with the message taken from the queue and sent once into each endpoint of a list
in which `c` occurs once when the message concerns `u` and not at all otherwise. -/
theorem dispatch_targets (b : Broker) (msg : Message) (rest : List Message)
    (f : Nat → Choice) (u : String) (c : ChanId)
    (hpc : b.pc = .idle) (hctx : b.ctx = none) (hin : b.input = msg :: rest)
    (hopen : AllOpen b) (hex : Exclusive b) (hl : lookupUser u b.users = some c)
    (hperm : (f 0).2.Perm b.users) :
    ∃ T : List ChanId, T.count c = (if addressedTo u msg then 1 else 0) ∧
      b.RunN f (dispatchSteps b.users.length msg) =
        { b with input := rest, deq := b.deq ++ [msg], rlocked := false, pc := .idle,
                 chans := (sendAll msg T (b.chans, b.delivered)).1,
                 delivered := (sendAll msg T (b.chans, b.delivered)).2 } := by
  have hmem := lookupUser_mem u c b.users hl
  cases hb : msg.Broadcast with
  | true =>
    refine ⟨(f 0).2.map Prod.snd, ?_, ?_⟩
    · rw [(hperm.map Prod.snd).count_eq c, exclusive_count_one b.users hex u c hmem]
      simp [addressedTo, hb]
    · have hs : dispatchSteps b.users.length msg = b.users.length + 2 := by
        simp [dispatchSteps, hb]
      rw [hs]
      exact broadcast_dispatch b msg rest f hpc hctx hin hb hperm hopen
  | false =>
    have hs : dispatchSteps b.users.length msg = 2 := by
      simp [dispatchSteps, hb]
    rw [hs]
    cases hr : lookupUser msg.Recipient b.users with
    | none =>
      refine ⟨[], ?_, ?_⟩
      · have hne : msg.Recipient ≠ u := by
          intro h
          rw [h, hl] at hr
          cases hr
        simp [addressedTo, hb, hne]
      · rw [direct_dispatch_none b msg rest f hpc hctx hin hb hr]
        rfl
    | some c' =>
      have hmem' := lookupUser_mem msg.Recipient c' b.users hr
      refine ⟨[c'], ?_, ?_⟩
      · by_cases hu : msg.Recipient = u
        · have hcc : c' = c := by
            rw [hu, hl] at hr
            exact (Option.some.inj hr).symm
          simp [addressedTo, hb, hu, hcc]
        · have hcc : c' ≠ c := by
            intro h
            rw [h] at hmem'
            exact hu (exclusive_same_user b.users hex _ _ c hmem' hmem)
          have h0 : List.count c [c'] = 0 :=
            List.count_eq_zero.2 (by simp [Ne.symm hcc])
          simp [addressedTo, hb, hu, h0]
      · exact direct_dispatch_some b msg rest f c' hpc hctx hin hb hr
          (hopen (msg.Recipient, c') hmem')

theorem pushAll_append (ch : Chan) (l1 l2 : List Message) :
    (ch.pushAll l1).pushAll l2 = ch.pushAll (l1 ++ l2) := by
  unfold Chan.pushAll
  rw [List.foldl_append]

theorem take_spare_step (ch : Chan) (rel : List Message) (msg : Message) (k : Nat)
    (hk : k = 0 ∨ k = 1) :
    List.replicate (min ch.spare k) msg ++
        List.take (ch.pushAll (List.replicate (min ch.spare k) msg)).spare rel
      = List.take ch.spare (List.replicate k msg ++ rel) := by
  rcases hk with rfl | rfl
  · simp [Chan.pushAll]
  · by_cases hr : ch.canAccept = true
    · have hs := spare_push ch msg hr
      have h1 : min ch.spare 1 = 1 := by omega
      have h2 : ch.spare = (ch.push msg).spare + 1 := by omega
      rw [h1]
      simp only [List.replicate_one, List.singleton_append]
      rw [show ch.pushAll [msg] = ch.push msg from rfl]
      rw [h2, List.take_succ_cons]
    · have h0 : ch.spare = 0 := by
        have := (canAccept_iff ch).not.1 hr
        omega
      simp [h0, Chan.pushAll]

/-- With the shutdown signal not fired, every registered endpoint open and no endpoint
registered twice, `Run` dispatches a whole queue in `drainSteps` steps, and the endpoint
of a registered user is sent the messages that concern the user, in the order of the
queue, as long as it can accept them. -/
theorem drain_queue (msgs : List Message) (b : Broker) (f : Nat → Choice) (u : String)
    (c : ChanId) (hpc : b.pc = .idle) (hctx : b.ctx = none) (hin : b.input = msgs)
    (hopen : AllOpen b) (hex : Exclusive b) (hl : lookupUser u b.users = some c)
    (hperm : ∀ i, (f i).2.Perm b.users) :
    (b.RunN f (drainSteps b.users.length msgs)).pc = .idle ∧
    (b.RunN f (drainSteps b.users.length msgs)).input = [] ∧
    (b.RunN f (drainSteps b.users.length msgs)).deq = b.deq ++ msgs ∧
    (b.RunN f (drainSteps b.users.length msgs)).chans c =
      (b.chans c).pushAll ((msgs.filter (addressedTo u)).take (b.chans c).spare) ∧
    (b.RunN f (drainSteps b.users.length msgs)).delivered c =
      b.delivered c ++ (msgs.filter (addressedTo u)).take (b.chans c).spare := by
  induction msgs generalizing b f with
  | nil =>
    simp [drainSteps, RunN_zero, hpc, hin, Chan.pushAll]
  | cons msg rest ih =>
    obtain ⟨T, hT, hrun⟩ :=
      dispatch_targets b msg rest f u c hpc hctx hin hopen hex hl (hperm 0)
    have hsteps : drainSteps b.users.length (msg :: rest) =
        dispatchSteps b.users.length msg + drainSteps b.users.length rest := by
      simp [drainSteps]
    rw [hsteps, RunN_add, hrun]
    have hspec := sendAll_spec msg T (b.chans, b.delivered) c
    simp only at hspec
    have hopen' : AllOpen
        { b with input := rest, deq := b.deq ++ [msg], rlocked := false, pc := .idle,
                 chans := (sendAll msg T (b.chans, b.delivered)).1,
                 delivered := (sendAll msg T (b.chans, b.delivered)).2 } := by
      intro p hp
      simp only
      rw [(sendAll_cap msg T (b.chans, b.delivered) p.2).2]
      exact hopen p hp
    have h := ih
      { b with input := rest, deq := b.deq ++ [msg], rlocked := false, pc := .idle,
               chans := (sendAll msg T (b.chans, b.delivered)).1,
               delivered := (sendAll msg T (b.chans, b.delivered)).2 }
      (fun i => f (i + dispatchSteps b.users.length msg)) rfl hctx rfl hopen' hex hl
      (fun i => hperm _)
    simp only at h
    obtain ⟨h1, h2, h3, h4, h5⟩ := h
    have hk : (if addressedTo u msg = true then 1 else 0) = 0 ∨
        (if addressedTo u msg = true then 1 else 0) = 1 := by
      split <;> simp
    have hstep := take_spare_step (b.chans c) (rest.filter (addressedTo u)) msg _ hk
    have hfil : List.replicate (if addressedTo u msg = true then 1 else 0) msg ++
        rest.filter (addressedTo u) = (msg :: rest).filter (addressedTo u) := by
      by_cases ha : addressedTo u msg = true
      · simp [ha, List.filter_cons]
      · simp [ha, List.filter_cons]
    refine ⟨h1, h2, ?_, ?_, ?_⟩
    · rw [h3]
      simp
    · rw [h4, hspec.1, hT, pushAll_append, hstep, hfil]
    · rw [h5, hspec.1, hspec.2, hT, List.append_assoc, hstep, hfil]

end chatcore

/-! ## Arrival under interleaving -/

namespace chatcore

theorem addressed_broadcast (u : String) (msg : Message) (h : msg.Broadcast = true) :
    addressedTo u msg = true := by
  simp [addressedTo, h]

theorem addressed_direct (u : String) (msg : Message) (h : msg.Broadcast = false) :
    addressedTo u msg = decide (msg.Recipient = u) := by
  simp [addressedTo, h]

theorem filter_snoc_pos (u : String) (pre : List Message) (msg : Message)
    (h : addressedTo u msg = true) :
    (pre ++ [msg]).filter (addressedTo u) = pre.filter (addressedTo u) ++ [msg] := by
  simp [List.filter_append, List.filter_cons, h]

theorem filter_snoc_neg (u : String) (pre : List Message) (msg : Message)
    (h : addressedTo u msg = false) :
    (pre ++ [msg]).filter (addressedTo u) = pre.filter (addressedTo u) := by
  simp [List.filter_append, List.filter_cons, h]

theorem RunCase_arrivalInv (d0 q0 : List Message) (u : String) (c : ChanId)
    (b b' : Broker) (order : List (String × ChanId)) (h : RunCase b order b')
    (hperm : order.Perm b.users) (hst : Stays u c b) (hinv : ArrivalInv d0 q0 u c b) :
    ArrivalInv d0 q0 u c b' := by
  obtain ⟨hl, hex, hacc⟩ := hst
  have hmem := lookupUser_mem u c b.users hl
  obtain ⟨since, hdeq, hinv⟩ := hinv
  cases h with
  | stay hs => exact ⟨since, hdeq, hinv⟩
  | exitIdle hpc hctx => exact ⟨since, hdeq, by simp [Broker.exitIdle]⟩
  | take msg rest hpc hin =>
    rw [hpc] at hinv
    simp only at hinv
    refine ⟨since ++ [msg], by simp [Broker.takeMsg, hdeq], ?_⟩
    cases hb : msg.Broadcast with
    | true =>
      simp only [Broker.takeMsg, hb, if_true]
      refine ⟨(hperm.map Prod.snd).nodup_iff.2 hex, trivial, since, rfl, ?_⟩
      have hc : c ∈ List.map Prod.snd order :=
        List.mem_map.2 ⟨(u, c), hperm.mem_iff.2 hmem, rfl⟩
      rw [if_pos hc]
      exact hinv
    | false =>
      simp only [Broker.takeMsg, hb, Bool.false_eq_true, if_false]
      exact ⟨trivial, since, rfl, hinv⟩
  | bcastEnd msg hpc =>
    rw [hpc] at hinv
    simp only at hinv
    obtain ⟨_, _, pre, hs, hd⟩ := hinv
    refine ⟨since, hdeq, ?_⟩
    simp only [Broker.unlockIdle]
    simpa using hd
  | bcastSent msg d rest hpc hc hr =>
    rw [hpc] at hinv
    simp only at hinv
    obtain ⟨hnd, hb, pre, hs, hd⟩ := hinv
    have hnd' := List.nodup_cons.1 hnd
    refine ⟨since, hdeq, ?_⟩
    simp only [Broker.deliver]
    refine ⟨hnd'.2, hb, pre, hs, ?_⟩
    by_cases hcd : c = d
    · subst hcd
      simp only [List.mem_cons, true_or, if_true] at hd
      simp only [pushLog, if_true, hnd'.1, if_false]
      rw [hd, hs, filter_snoc_pos u pre msg (addressed_broadcast u msg hb),
        List.append_assoc]
    · simp only [List.mem_cons, hcd, false_or] at hd
      simpa [pushLog, hcd] using hd
  | bcastDropped msg d rest hpc hc hr hctx =>
    rw [hpc] at hinv
    simp only at hinv
    obtain ⟨hnd, hb, pre, hs, hd⟩ := hinv
    have hnd' := List.nodup_cons.1 hnd
    refine ⟨since, hdeq, ?_⟩
    simp only
    refine ⟨hnd'.2, hb, pre, hs, ?_⟩
    by_cases hcd : c = d
    · subst hcd
      rw [hacc] at hr
      cases hr
    · simp only [List.mem_cons, hcd, false_or] at hd
      exact hd
  | bcastAbort msg l hpc hctx => exact ⟨since, hdeq, by simp [Broker.exitAbort]⟩
  | bcastPanic msg d rest hpc hc => exact ⟨since, hdeq, by simp [Broker.panicSend]⟩
  | directNone msg hpc hr =>
    rw [hpc] at hinv
    simp only at hinv
    obtain ⟨hb, pre, hs, hd⟩ := hinv
    refine ⟨since, hdeq, ?_⟩
    simp only [Broker.unlockIdle]
    have hne : msg.Recipient ≠ u := by
      intro h
      rw [h, hl] at hr
      cases hr
    have ha : addressedTo u msg = false := by
      rw [addressed_direct u msg hb]
      simp [hne]
    rw [hd, hs, filter_snoc_neg u pre msg ha]
  | directSent msg d hpc hr hc hacc' =>
    rw [hpc] at hinv
    simp only at hinv
    obtain ⟨hb, pre, hs, hd⟩ := hinv
    have hmem' := lookupUser_mem msg.Recipient d b.users hr
    refine ⟨since, hdeq, ?_⟩
    simp only [Broker.unlockIdle, Broker.deliver]
    by_cases hcd : c = d
    · subst hcd
      have hu : msg.Recipient = u := exclusive_same_user b.users hex _ _ c hmem' hmem
      have ha : addressedTo u msg = true := by
        rw [addressed_direct u msg hb]
        simp [hu]
      simp only [pushLog, if_true]
      rw [hd, hs, filter_snoc_pos u pre msg ha, List.append_assoc]
    · have hne : msg.Recipient ≠ u := by
        intro h
        rw [h, hl] at hr
        exact hcd (Option.some.inj hr)
      have ha : addressedTo u msg = false := by
        rw [addressed_direct u msg hb]
        simp [hne]
      simp only [pushLog, hcd, if_false]
      rw [hd, hs, filter_snoc_neg u pre msg ha]
  | directDropped msg d hpc hr hc hacc' hctx =>
    rw [hpc] at hinv
    simp only at hinv
    obtain ⟨hb, pre, hs, hd⟩ := hinv
    refine ⟨since, hdeq, ?_⟩
    simp only [Broker.unlockIdle]
    by_cases hcd : c = d
    · subst hcd
      rw [hacc] at hacc'
      cases hacc'
    · have hne : msg.Recipient ≠ u := by
        intro h
        rw [h, hl] at hr
        exact hcd (Option.some.inj hr)
      have ha : addressedTo u msg = false := by
        rw [addressed_direct u msg hb]
        simp [hne]
      rw [hd, hs, filter_snoc_neg u pre msg ha]
  | directAbort msg hpc hctx => exact ⟨since, hdeq, by simp [Broker.exitAbort]⟩
  | directPanic msg d hpc hr hc => exact ⟨since, hdeq, by simp [Broker.panicSend]⟩

theorem ArrivalInv_frame (d0 q0 : List Message) (u : String) (c : ChanId) (b b' : Broker)
    (hpc : b'.pc = b.pc) (hd : b'.deq = b.deq) (hl : b'.delivered = b.delivered)
    (hinv : ArrivalInv d0 q0 u c b) : ArrivalInv d0 q0 u c b' := by
  unfold ArrivalInv at hinv ⊢
  rw [hpc, hd, hl]
  exact hinv

theorem Step_arrivalInv (d0 q0 : List Message) (u : String) (c : ChanId) (b b' : Broker)
    (h : Step b b') (hst : Stays u c b) (hinv : ArrivalInv d0 q0 u c b) :
    ArrivalInv d0 q0 u c b' := by
  cases h with
  | cancel e =>
    unfold Broker.cancel
    split
    · exact ArrivalInv_frame d0 q0 u c b _ rfl rfl rfl hinv
    · exact hinv
  | send pick msg _ r hs =>
    rcases SendMessage_cases b b' pick msg r hs with h | h
    · rw [h.1]; exact hinv
    · rw [h.1]
      exact ArrivalInv_frame d0 q0 u c b _ rfl rfl rfl hinv
  | register v d hl => exact ArrivalInv_frame d0 q0 u c b _ rfl rfl rfl hinv
  | unregister v hl => exact ArrivalInv_frame d0 q0 u c b _ rfl rfl rfl hinv
  | run pick order hp =>
    exact RunCase_arrivalInv d0 q0 u c b _ order (Run_cases b pick order) hp hst hinv
  | recv d => exact ArrivalInv_frame d0 q0 u c b _ rfl rfl rfl hinv
  | leave d => exact ArrivalInv_frame d0 q0 u c b _ rfl rfl rfl hinv
  | close d => exact ArrivalInv_frame d0 q0 u c b _ rfl rfl rfl hinv

theorem Reach_arrivalInv (d0 q0 : List Message) (u : String) (c : ChanId) (b0 b : Broker)
    (h : Reach (Stays u c) b0 b) (hst : Stays u c b0) (hinv : ArrivalInv d0 q0 u c b0) :
    ArrivalInv d0 q0 u c b := by
  induction h with
  | init => exact hinv
  | step b1 b2 hr hs _ ih =>
    exact Step_arrivalInv d0 q0 u c b1 b2 hs (Reach_holds (Stays u c) b0 b1 hr hst) ih

/-- While user `u` stays registered with endpoint `c`, no other user is registered with
it and it can accept a message, every message concerning `u` that `Run` has dispatched
has been sent into `c`, in dispatch order, whatever else happens in between. -/
theorem arrival_in_order (u : String) (c : ChanId) (b0 b : Broker)
    (h : Reach (Stays u c) b0 b) (hst : Stays u c b0) (h0 : b0.pc = .idle)
    (hpc : b.pc = .idle) :
    ∃ since, b.deq = b0.deq ++ since ∧
      b.delivered c = b0.delivered c ++ since.filter (addressedTo u) := by
  have hinv0 : ArrivalInv (b0.delivered c) b0.deq u c b0 := by
    refine ⟨[], by simp, ?_⟩
    rw [h0]
    simp
  obtain ⟨since, hdeq, hinv⟩ := Reach_arrivalInv _ _ u c b0 b h hst hinv0
  rw [hpc] at hinv
  exact ⟨since, hdeq, hinv⟩

end chatcore

namespace chatcore

/-- C7, counterexample.  First: "alice" and "bob" are registered with the same channel
(capacity 2) and one broadcast is submitted; the dispatch sends it into that channel once
per registry entry, so the endpoint holds the message twice although it was submitted
once.  Second: "alice" is registered with a closed channel, "bob" with an open one; a
broadcast and then a direct message to "bob" are submitted; `Run` panics in the
broadcast, the direct message stays on the inbound queue and never arrives, although
"bob" stays registered with spare capacity. -/
theorem fifo_shared_endpoint_counterexample :
    (sharedScene.enq = [sampleBroadcast] ∧
     (sharedScene.RunN (constChoice [("alice", 0), ("bob", 0)]) 4).enq = [sampleBroadcast] ∧
     ((sharedScene.RunN (constChoice [("alice", 0), ("bob", 0)]) 4).chans 0).buf
       = [sampleBroadcast, sampleBroadcast] ∧
     (sharedScene.RunN (constChoice [("alice", 0), ("bob", 0)]) 4).delivered 0
       = [sampleBroadcast, sampleBroadcast]) ∧
    (closedScene.enq = [sampleBroadcast, sampleDirectBob] ∧
     lookupUser "bob" closedScene.users = some 1 ∧
     (closedScene.chans 1).canAccept = true ∧
     (closedScene.RunN (constChoice twoUsers) 6).pc = PC.panicked ∧
     (closedScene.RunN (constChoice twoUsers) 6).input = [sampleDirectBob] ∧
     ((closedScene.RunN (constChoice twoUsers) 6).chans 1).buf = []) := by
  decide

/-- C7, amended: FIFO without duplication.  (1) In every state reachable from a new
broker the messages `Run` has taken from the inbound queue, followed by those still
queued, are exactly the messages enqueued, in enqueue order: `Run` dispatches in enqueue
order, each message once.  (2) When no two users are ever registered with the same
endpoint, the sequence of messages `Run` has sent into any one endpoint is a subsequence
of the dispatch order, hence of the enqueue order, and no message occurs in it more often
than it was enqueued.  (3) While a user stays registered with an endpoint that no other
user is registered with and that can accept a message, then, whatever else happens in
between (submissions, other registrations, receives, cancellation), each time `Run` is
back at its idle wait every message dispatched so far that concerns the user (a broadcast
or a direct message to the user) has been sent into that endpoint, in dispatch order.
(4) From an idle state in which the shutdown signal has not fired, every registered
endpoint is open and no endpoint is registered twice, `Run` left alone dispatches the
whole queue, and the endpoint of a registered user is sent the messages that concern the
user in submission order as far as it can accept them; when nobody is waiting on it and
its spare capacity suffices, all of them join its buffer in that order. -/
theorem fifo_no_duplication (ctx : Option CtxError) (heap : ChanId → Chan) (b : Broker) :
    (Reach (fun _ => True) (NewBroker ctx heap) b → b.deq ++ b.input = b.enq) ∧
    (Reach Exclusive (NewBroker ctx heap) b →
      ∀ c, (b.delivered c).Sublist b.deq ∧ (b.delivered c).Sublist b.enq ∧
        ∀ m, (b.delivered c).count m ≤ b.enq.count m) ∧
    (∀ (u : String) (c : ChanId) (b0 : Broker), b0.pc = .idle → Stays u c b0 →
      Reach (Stays u c) b0 b → b.pc = .idle →
      ∃ since, b.deq = b0.deq ++ since ∧
        b.delivered c = b0.delivered c ++ since.filter (addressedTo u)) ∧
    (∀ (f : Nat → Choice) (u : String) (c : ChanId), b.pc = .idle → b.ctx = none →
      AllOpen b → Exclusive b → lookupUser u b.users = some c →
      (∀ i, (f i).2.Perm b.users) →
      (b.RunN f (drainSteps b.users.length b.input)).pc = .idle ∧
      (b.RunN f (drainSteps b.users.length b.input)).input = [] ∧
      (b.RunN f (drainSteps b.users.length b.input)).deq = b.deq ++ b.input ∧
      (b.RunN f (drainSteps b.users.length b.input)).chans c =
        (b.chans c).pushAll ((b.input.filter (addressedTo u)).take (b.chans c).spare) ∧
      (b.RunN f (drainSteps b.users.length b.input)).delivered c =
        b.delivered c ++ (b.input.filter (addressedTo u)).take (b.chans c).spare ∧
      ((b.chans c).waiting = 0 →
        (b.chans c).buf.length + (b.input.filter (addressedTo u)).length ≤ (b.chans c).cap →
        ((b.RunN f (drainSteps b.users.length b.input)).chans c).buf =
          (b.chans c).buf ++ b.input.filter (addressedTo u))) := by
  refine ⟨?_, ?_, ?_, ?_⟩
  · intro h
    exact Reach_fifo _ _ b h (by simp [NewBroker])
  · intro h c
    have hinv : DeliveredInv b := by
      apply Reach_deliveredInv _ b h
      · simp [Exclusive, NewBroker]
      · simp [DeliveredInv, NewBroker]
    have hfifo : b.deq ++ b.input = b.enq := by
      apply Reach_fifo _ _ b h
      simp [NewBroker]
    have h1 := DeliveredInv_sublist b hinv c
    have h2 : (b.delivered c).Sublist b.enq := by
      rw [← hfifo]
      exact h1.trans (List.sublist_append_left _ _)
    exact ⟨h1, h2, fun m => h2.count_le m⟩
  · intro u c b0 h0 hst hreach hpc
    exact arrival_in_order u c b0 b hreach hst h0 hpc
  · intro f u c hpc hctx hopen hex hl hperm
    obtain ⟨h1, h2, h3, h4, h5⟩ :=
      drain_queue b.input b f u c hpc hctx rfl hopen hex hl hperm
    refine ⟨h1, h2, h3, h4, h5, ?_⟩
    intro hw hlen
    have hsp : (b.input.filter (addressedTo u)).length ≤ (b.chans c).spare := by
      unfold Chan.spare
      omega
    rw [h4, List.take_of_length_le hsp]
    exact (pushAll_buf _ (b.chans c) hw hlen).1

/-- C7, amended, at concrete states.  "alice" and "bob" registered with open channels of
capacity 2; a direct message to "alice", a broadcast and a direct message to "bob" are
queued; after the queue is drained alice's endpoint holds the first two, in this order.
And with one direct message to "alice" queued, after the two steps of its dispatch, during
which "alice" stays registered with an endpoint that can accept, what was dispatched and
concerns "alice" has been sent into her endpoint. -/
theorem fifo_no_duplication_witness :
    ((busyScene.RunN (constChoice twoUsers) 8).chans 0).buf
      = [sampleDirect, sampleBroadcast] ∧
    ∃ since,
      ((scene none (openHeap 2) sampleDirect).RunN (constChoice twoUsers) 2).deq
        = (scene none (openHeap 2) sampleDirect).deq ++ since ∧
      ((scene none (openHeap 2) sampleDirect).RunN (constChoice twoUsers) 2).delivered 0
        = (scene none (openHeap 2) sampleDirect).delivered 0 ++
            since.filter (addressedTo "alice") :=
  ⟨((fifo_no_duplication none (openHeap 2) busyScene).2.2.2 (constChoice twoUsers) "alice" 0
      rfl rfl (by unfold AllOpen; decide) (by unfold Exclusive; decide) rfl
      (fun _ => List.Perm.refl _)).2.2.2.2.2 rfl (by decide),
   (fifo_no_duplication none (openHeap 2)
      ((scene none (openHeap 2) sampleDirect).RunN (constChoice twoUsers) 2)).2.2.1
      "alice" 0 (scene none (openHeap 2) sampleDirect) rfl
      ⟨rfl, by unfold Exclusive; decide, rfl⟩
      (Reach.step _ _
        (Reach.step _ _ Reach.init (Step.run _ false twoUsers (List.Perm.refl _))
          ⟨rfl, by unfold Exclusive; decide, rfl⟩)
        (Step.run _ false twoUsers (List.Perm.refl _))
        ⟨rfl, by unfold Exclusive; decide, rfl⟩)
      rfl⟩

end chatcore

/-! ## The scenario of the specification -/

namespace chatcore

/-- The scenario of section 8 of the specification, run on the model: "alice" and "bob"
register endpoints of capacity 1; a broadcast reaches both; after both have received it, a
direct message to "alice" reaches alice's endpoint only; after "alice" has received it and
"bob" was unregistered, a second broadcast reaches alice's endpoint only. -/
theorem spec_scenario :
    (((scene none (openHeap 1) sampleBroadcast).RunN (constChoice twoUsers) 4).chans 0).buf
      = [sampleBroadcast] ∧
    (((scene none (openHeap 1) sampleBroadcast).RunN (constChoice twoUsers) 4).chans 1).buf
      = [sampleBroadcast] ∧
    (((submit ((((scene none (openHeap 1) sampleBroadcast).RunN (constChoice twoUsers)
        4).recvChan 0).recvChan 1) false sampleDirect).RunN (constChoice twoUsers) 2).chans
        0).buf = [sampleDirect] ∧
    (((submit ((((scene none (openHeap 1) sampleBroadcast).RunN (constChoice twoUsers)
        4).recvChan 0).recvChan 1) false sampleDirect).RunN (constChoice twoUsers) 2).chans
        1).buf = [] ∧
    (((submit (((((submit ((((scene none (openHeap 1) sampleBroadcast).RunN
        (constChoice twoUsers) 4).recvChan 0).recvChan 1) false sampleDirect).RunN
        (constChoice twoUsers) 2).recvChan 0).UnregisterUser "bob")) false
        sampleBroadcast).RunN (constChoice [("alice", 0)]) 3).chans 0).buf
      = [sampleBroadcast] ∧
    (((submit (((((submit ((((scene none (openHeap 1) sampleBroadcast).RunN
        (constChoice twoUsers) 4).recvChan 0).recvChan 1) false sampleDirect).RunN
        (constChoice twoUsers) 2).recvChan 0).UnregisterUser "bob")) false
        sampleBroadcast).RunN (constChoice [("alice", 0)]) 3).chans 1).buf
      = [] := by
  decide

end chatcore
